import Mathlib

/-!
The `parmap` engine and the `seq` counter of govips-segfault.

A shallow embedding of `parmap/parmap.go`, `seq/seq.go` and the intake
function of `slice/tointerfaceslice.go`.

* `seq` is sequential code over a `uint64`; it becomes pure functions on
  `Nat` with an explicit `% 2 ^ 64`.
* `parmap.InterfacesToInterfaces` starts goroutines that talk over two
  buffered channels and one atomic counter.  It becomes a small-step machine:
  a state holds the program point of the calling goroutine, the program point
  of every worker goroutine, the two channel buffers, the counter and the
  context flag; `step` runs one atomic action of one goroutine, and a list of
  `Actor`s is one interleaving.  Statements "for every interleaving" quantify
  over all such lists.  The transform `fn` is a total function without side
  effects, and one call of it is one action.
-/

/-! ## Go values shared by the packages -/

/-- A Go `error` built with `fmt.Errorf`: a plain message, or a text followed
by the message of a wrapped error (the `%w` verb, always last in this
repository). -/
inductive GoError where
  | errorf (msg : String)
  | wrapf (pre : String) (inner : GoError)
  deriving DecidableEq, Repr

/-- The method `Error()`: the message of an error. -/
def GoError.Error : GoError → String
  | .errorf msg => msg
  | .wrapf pre inner => pre ++ inner.Error

/-- The method `Unwrap()`: the error wrapped with `%w`, if any. -/
def GoError.Unwrap : GoError → Option GoError
  | .errorf _ => none
  | .wrapf _ inner => some inner

/-- What `strings.Contains(msg, needle)` decides. -/
def mentions (msg needle : String) : Prop := needle.data <:+: msg.data

instance (msg needle : String) : Decidable (mentions msg needle) := by
  unfold mentions; infer_instance

/-- The verb `%d` and `strconv.Itoa`: base-10 text of an integer, with a
leading minus sign when negative. -/
def fmtD : Int → String
  | Int.ofNat n => Nat.repr n
  | Int.negSucc n => "-" ++ Nat.repr (n + 1)

/-- The dynamic values (`interface{}`) that flow through `IntsToStrings`:
its items are `int`s and its results are `string`s. -/
inductive Iface where
  | int (n : Int)
  | str (s : String)
  deriving DecidableEq, Repr

/-- The verb `%v` on such a value. -/
def fmtV : Iface → String
  | .int n => fmtD n
  | .str s => s

/-! ## Package `seq` -/

namespace seq

/-- The number of values of a `uint64`. -/
def UINT64 : Nat := 2 ^ 64

/-- The type `Seq uint64`: the state is the stored counter, below `2 ^ 64`. -/
abbrev Seq := Nat

/-- The method `Seq.Reset(val)`: store `val`.  (`val` is a `uint64`; the reduction keeps
the function inside the type for every `Nat`.) -/
def Seq.Reset (_seq : Seq) (val : Nat) : Seq := val % UINT64

/-- The method `Seq.Next()`: `atomic.AddUint64(seq, 1)` adds one modulo `2 ^ 64`, stores
the sum and returns it.  The result is the pair (new state, returned value). -/
def Seq.Next (seq : Seq) : Seq × Nat :=
  let v := (seq + 1) % UINT64
  (v, v)

/-- The conversion `int(x)` of a `uint64` on a platform with 64-bit `int`:
the same bit pattern read in two's complement. -/
def toInt (x : Nat) : Int :=
  if x % UINT64 < 2 ^ 63 then ((x % UINT64 : Nat) : Int)
  else ((x % UINT64 : Nat) : Int) - (UINT64 : Int)

/-- The method `Seq.NextAsInt()`: `int(seq.Next())`. -/
def Seq.NextAsInt (seq : Seq) : Seq × Int :=
  let r := Seq.Next seq
  (r.1, toInt r.2)

/-- The method `Seq.NextAsString()`: `strconv.Itoa(seq.NextAsInt())`. -/
def Seq.NextAsString (seq : Seq) : Seq × String :=
  let r := Seq.NextAsInt seq
  (r.1, fmtD r.2)

end seq

/-! ## Package `slice` -/

namespace slice

/-- What `reflect.ValueOf` sees in the argument of `ToInterfaceSlice`: a
value whose kind is not `Slice`, a nil slice, or a slice with its elements. -/
inductive Arg where
  | notSlice (v : Iface)
  | nilSlice
  | elems (xs : List Iface)
  deriving DecidableEq, Repr

/-- The function `ToInterfaceSlice(slice)`, by what it returns: the elements of
a non-nil slice, in order; an error (with an empty result) for a non-slice or
a nil slice.  Its body is run statement by statement in `ToInterfaceSlice.run`
below, and `intake_conversion` shows that the two agree. -/
def ToInterfaceSlice : Arg → List Iface × Option GoError
  | .notSlice _ => ([], some (.errorf "given a non-slice type"))
  | .nilSlice => ([], some (.errorf "nil slice given"))
  | .elems xs => (xs, none)

/-- The kinds `reflect.Value.Kind()` reports for the values of `Arg`. -/
inductive Kind where
  | Int
  | String
  | Slice
  deriving DecidableEq, Repr

/-- The method `reflect.Value.Kind()`; it never panics. -/
def Arg.Kind : Arg → Kind
  | .notSlice (.int _) => Kind.Int
  | .notSlice (.str _) => Kind.String
  | .nilSlice => Kind.Slice
  | .elems _ => Kind.Slice

/-- The method `reflect.Value.IsNil()`; it panics (`none`) on a value whose
kind cannot be nil, such as an `int` or a `string`. -/
def Arg.IsNil : Arg → Option Bool
  | .notSlice _ => none
  | .nilSlice => some true
  | .elems _ => some false

/-- The method `reflect.Value.Len()`; it panics (`none`) on a value without a
length; the length of a string is its number of bytes. -/
def Arg.Len : Arg → Option Nat
  | .notSlice (.int _) => none
  | .notSlice (.str s) => some s.utf8ByteSize
  | .nilSlice => some 0
  | .elems xs => some xs.length

/-- The call `s.Index(i).Interface()` on a slice; it panics (`none`) when `i`
is out of range or the value is not a slice. -/
def Arg.Index : Arg → Nat → Option Iface
  | .elems xs, i => xs[i]?
  | _, _ => none

/-- The loop `for i := 0; i < s.Len(); i++ { ret[i] = s.Index(i).Interface() }`
from the test of `i` on, `ret` being the slice made so far; an element of
`ret` is `none` while it is the nil interface `make` put there.  A panic is
`none`; `fuel` bounds the number of tests (`s.Len() + 1` are enough). -/
def fillLoop (s : Arg) : Nat → Nat → List (Option Iface) → Option (List (Option Iface))
  | 0, _, _ => none
  | fuel + 1, i, ret =>
      match s.Len with
      | none => none
      | some n =>
          if i < n then
            match s.Index i with
            | none => none
            | some v =>
                if i < ret.length then fillLoop s fuel (i + 1) (ret.set i (some v))
                else none
          else some ret

/-- The body of `ToInterfaceSlice`, statement by statement, over the `reflect`
operations above: `none` when an operation panics, otherwise the two values
returned (an element `none` would be a nil interface left by `make`). -/
def ToInterfaceSlice.run (slice : Arg) : Option (List (Option Iface) × Option GoError) :=
  if slice.Kind ≠ Kind.Slice then
    some ([], some (.errorf "given a non-slice type"))
  else
    match slice.IsNil with
    | none => none
    | some true => some ([], some (.errorf "nil slice given"))
    | some false =>
        match slice.Len with
        | none => none
        | some n =>
            match fillLoop slice (n + 1) 0 (List.replicate n none) with
            | none => none
            | some ret => some (ret, none)

end slice

/-! ## Package `parmap` -/

namespace parmap

/-- The record `type indexedInterface struct { Index int; Value interface{}; Error error }`.
`Index` only ever holds a position of `range inputs`, hence a `Nat`. -/
structure indexedInterface (γ : Type) where
  Index : Nat
  Value : γ
  Error : Option GoError
  deriving DecidableEq, Repr

/-- The method `indexedInterfaceByIndex.Less`, on the two elements compared. -/
def Less {γ : Type} (a b : indexedInterface γ) : Bool := a.Index < b.Index

/-- The call `sort.Sort(indexedInterfaceByIndex(xs))`: the elements in an order where
no later element is `Less` than an earlier one (insertion sort stands for the
library routine). -/
def sortByIndex {γ : Type} (xs : List (indexedInterface γ)) : List (indexedInterface γ) :=
  List.insertionSort (fun a b => ¬ (Less b a = true)) xs

/-- A `context.Context`, described by what the function can observe of it:
whether `ctx.Done()` is already closed at call time, whether it can be closed
later (a cancel function or a deadline), and the value of `ctx.Err()` once it
is closed. -/
structure Context where
  doneAtCall : Bool
  canFire : Bool
  err : GoError
  deriving DecidableEq, Repr

/-- The context `context.Background()`: never done. -/
def Background : Context :=
  { doneAtCall := false, canFire := false, err := .errorf "context canceled" }

/-- The arguments of one call of `InterfacesToInterfaces`. -/
structure Call (α β : Type) where
  ctx : Context
  inputs : List α
  workers : Int
  fn : Nat → α → β × Option GoError

/-- Program points of the calling goroutine. -/
inductive MainPC (β : Type) where
  /-- at the first statement -/
  | entry
  /-- at the test `i < workers` of the loop that starts workers -/
  | spawn (i : Nat)
  /-- at the loop `for index, input := range inputs`, about to handle `index` -/
  | feed (index : Nat)
  /-- at the `select` of the collecting loop -/
  | collect (indexedOutputs : List (indexedInterface β))
  /-- the function has returned these two values -/
  | returned (outputs : List β) (err : Option GoError)
  deriving DecidableEq, Repr

/-- Program points of a worker goroutine. -/
inductive WorkerPC (α β : Type) where
  /-- at `for job := range jobsChan`, waiting for a job -/
  | recv
  /-- holding `job`, at the inner `select` -/
  | sel (job : indexedInterface α)
  /-- in the `default` branch, at `atomic.LoadUint64(&errorCount)` -/
  | gate (job : indexedInterface α)
  /-- past the gate, at the call `fn(job.Index, job.Value)` -/
  | call (job : indexedInterface α)
  /-- after `fn` has returned `output, err`; at `if err != nil` -/
  | ran (job : indexedInterface α) (output : β) (err : Option GoError)
  /-- at `outputChan <- ...` -/
  | send (output : indexedInterface β)
  /-- the goroutine has returned -/
  | exited
  deriving DecidableEq, Repr

/-- The state of one call in progress. -/
structure State (α β : Type) where
  main : MainPC β
  /-- the worker goroutines started so far -/
  ws : List (WorkerPC α β)
  /-- buffer of `jobsChan`, oldest first -/
  jobs : List (indexedInterface α)
  /-- whether `jobsChan` has been closed (the deferred `close`) -/
  closed : Bool
  /-- buffer of `outputChan`, oldest first -/
  out : List (indexedInterface β)
  /-- the `uint64` counter; it is incremented at most once per job and a slice
  has fewer than `2 ^ 63` elements, so it never wraps -/
  errorCount : Nat
  /-- whether `ctx.Done()` is closed -/
  done : Bool
  /-- every invocation of `fn` so far, in order: its two arguments -/
  calls : List (Nat × α)
  deriving DecidableEq, Repr

/-- Who takes the next atomic action. -/
inductive Actor where
  /-- the calling goroutine; in the collecting `select`, the branch that
  receives from `outputChan` -/
  | main
  /-- the calling goroutine in the collecting `select`, branch `<-ctx.Done()` -/
  | mainCtx
  /-- worker goroutine number `i` -/
  | worker (i : Nat)
  /-- the environment closes `ctx.Done()` -/
  | cancel
  deriving DecidableEq, Repr

variable {α β : Type}

/-- The state when `InterfacesToInterfaces` is called. -/
def init (c : Call α β) : State α β :=
  { main := .entry, ws := [], jobs := [], closed := false, out := [],
    errorCount := 0, done := c.ctx.doneAtCall, calls := [] }

/-- One action of the calling goroutine (lines 53-136 of `parmap.go`).  Both
channels have capacity `len(inputs)`; a send on a full buffer and a receive
on an empty one block, which is `none`.  Every `return` after the `defer`
closes `jobsChan`. -/
def mainStep (c : Call α β) (s : State α β) : Option (State α β) :=
  match s.main with
  | .entry =>
      if c.workers < 1 then
        some { s with main := (MainPC.returned []
          (some (.errorf ("must have at least one worker, specified " ++ fmtD c.workers)))) }
      else if c.inputs.length = 0 then
        some { s with main := .returned [] none }
      else
        some { s with main := .spawn 0 }
  | .spawn i =>
      if (i : Int) < c.workers then
        some { s with main := .spawn (i + 1), ws := s.ws ++ [.recv] }
      else
        some { s with main := .feed 0 }
  | .feed index =>
      match c.inputs[index]? with
      | some input =>
          if s.jobs.length < c.inputs.length then
            some { s with main := .feed (index + 1),
                          jobs := s.jobs ++ [{ Index := index, Value := input, Error := none }] }
          else none
      | none => some { s with main := .collect [] }
  | .collect indexedOutputs =>
      match s.out with
      | [] => none
      | output :: rest =>
          match output.Error with
          | some e =>
              some { s with main := (MainPC.returned []
                              (some (.wrapf ("index " ++ fmtD output.Index ++ ": ") e))),
                            out := rest, closed := true }
          | none =>
              if (indexedOutputs ++ [output]).length ≥ c.inputs.length then
                some { s with main := (MainPC.returned
                                ((sortByIndex (indexedOutputs ++ [output])).map (fun o => o.Value)) none),
                              out := rest, closed := true }
              else
                some { s with main := .collect (indexedOutputs ++ [output]), out := rest }
  | .returned _ _ => none

/-- The branch `case <-ctx.Done(): return []interface{}{}, ctx.Err()` of the
collecting `select`; it can be taken once the context is done, whether or not
an output is waiting. -/
def mainCtxStep (c : Call α β) (s : State α β) : Option (State α β) :=
  match s.main with
  | .collect _ =>
      if s.done then
        some { s with main := .returned [] (some c.ctx.err), closed := true }
      else none
  | _ => none

/-- One action of worker `i` (lines 78-96 of `parmap.go`).  `range` over a
channel takes the oldest buffered job, also after the channel was closed, and
ends when the channel is closed and empty.  A `select` with a `default` takes
`<-ctx.Done()` whenever the context is done. -/
def workerStep (c : Call α β) (s : State α β) (i : Nat) : Option (State α β) :=
  match s.ws[i]? with
  | none => none
  | some .recv =>
      match s.jobs with
      | job :: rest => some { s with ws := s.ws.set i (.sel job), jobs := rest }
      | [] => if s.closed then some { s with ws := s.ws.set i .exited } else none
  | some (.sel job) =>
      if s.done then some { s with ws := s.ws.set i .exited }
      else some { s with ws := s.ws.set i (.gate job) }
  | some (.gate job) =>
      if s.errorCount > 0 then some { s with ws := s.ws.set i .exited }
      else some { s with ws := s.ws.set i (.call job) }
  | some (.call job) =>
      some { s with ws := s.ws.set i (.ran job (c.fn job.Index job.Value).1 (c.fn job.Index job.Value).2),
                    calls := s.calls ++ [(job.Index, job.Value)] }
  | some (.ran job output err) =>
      some { s with ws := s.ws.set i (.send { Index := job.Index, Value := output, Error := err }),
                    errorCount := if err.isSome then s.errorCount + 1 else s.errorCount }
  | some (.send output) =>
      if s.out.length < c.inputs.length then
        some { s with ws := s.ws.set i .recv, out := s.out ++ [output] }
      else none
  | some .exited => none

/-- The context becomes done (cancel function called, or deadline passed). -/
def cancelStep (c : Call α β) (s : State α β) : Option (State α β) :=
  if c.ctx.canFire && !s.done then some { s with done := true } else none

/-- One atomic action of `a`, or `none` when `a` cannot move. -/
def step (c : Call α β) (a : Actor) (s : State α β) : Option (State α β) :=
  match a with
  | .main => mainStep c s
  | .mainCtx => mainCtxStep c s
  | .worker i => workerStep c s i
  | .cancel => cancelStep c s

/-- Run the interleaving `sched` from `s`; `none` when some actor of the list
cannot move at its turn. -/
def exec (c : Call α β) : List Actor → State α β → Option (State α β)
  | [], s => some s
  | a :: rest, s =>
      match step c a s with
      | some t => exec c rest t
      | none => none

/-- The same call with a context that cannot fire after the call. -/
def quiet (c : Call α β) : Call α β :=
  { c with ctx := { c.ctx with canFire := false } }

/-- The states `InterfacesToInterfaces` can be in, under any interleaving. -/
def Reachable (c : Call α β) (s : State α β) : Prop :=
  ∃ sched, exec c sched (init c) = some s

/-- No goroutine of the call can move (the context may still fire). -/
def Quiescent (c : Call α β) (s : State α β) : Prop :=
  ∀ a, a ≠ Actor.cancel → step c a s = none

/-- The values `InterfacesToInterfaces` has returned in state `s`, if it has. -/
def State.result (s : State α β) : Option (List β × Option GoError) :=
  match s.main with
  | .returned outputs err => some (outputs, err)
  | _ => none

/-- The function `InterfacesToInterfaces(ctx, inputs, workers, fn)` running
under the interleaving `sched`: the two values returned, or `none` when the
call has not returned at the end of `sched` (or `sched` is not a run). -/
def InterfacesToInterfaces (c : Call α β) (sched : List Actor) :
    Option (List β × Option GoError) :=
  match exec c sched (init c) with
  | none => none
  | some s => s.result

/-- That the call returns, and what it returns, under every interleaving:
every run is finite; a run in which no goroutine can move any more has
returned; whenever the call has returned, `P` holds of the state; and some
run does return. -/
def AlwaysReturns (c : Call α β) (P : State α β → Prop) : Prop :=
  (∃ bound, ∀ sched s, exec c sched (init c) = some s → sched.length ≤ bound)
  ∧ (∀ s, Reachable c s → Quiescent c s → s.result.isSome = true)
  ∧ (∀ s, Reachable c s → s.result.isSome = true → P s)
  ∧ (∃ s, Reachable c s ∧ s.result.isSome = true)

/-- The function `Inputs(s)`: `slice.ToInterfaceSlice(s)`. -/
def Inputs (s : slice.Arg) : List Iface × Option GoError := slice.ToInterfaceSlice s

/-- An argument of type `[]int` as `reflect` sees it; `none` is the nil slice. -/
def intsArg : Option (List Int) → slice.Arg
  | none => .nilSlice
  | some xs => .elems (xs.map Iface.int)

/-- The function literal `IntsToStrings` passes to `InterfacesToInterfaces`:
it calls `fn` on an `int` item and fails on anything else. -/
def adapter (fn : Nat → Int → String × Option GoError) (index : Nat) (item : Iface) :
    Iface × Option GoError :=
  match item with
  | .int typedItem => (Iface.str (fn index typedItem).1, (fn index typedItem).2)
  | .str _ => (Iface.str "", some (.errorf ("item cannot be cast to int: " ++ fmtV item)))

/-- The final loop of `IntsToStrings` over `results`, `acc` being
`typedResults` so far. -/
def typedLoop : List Iface → List String → List String × Option GoError
  | [], acc => (acc, none)
  | item :: rest, acc =>
      match item with
      | .str typedItem => typedLoop rest (acc ++ [typedItem])
      | .int _ => (acc, some (.errorf ("item cannot be cast to string: " ++ fmtV item)))

/-- What `IntsToStrings` does with the two values `InterfacesToInterfaces`
returned: wrap the error, or convert the results. -/
def finish (results : List Iface) (err : Option GoError) : List String × Option GoError :=
  match err with
  | some err => ([], some (.wrapf "parmap.parmapIntsToStrings: " err))
  | none => typedLoop results []

/-- The call of `InterfacesToInterfaces` made by `IntsToStrings`. -/
def innerCall (ctx : Context) (inputs : List Iface) (workers : Int)
    (fn : Nat → Int → String × Option GoError) : Call Iface Iface :=
  { ctx := ctx, inputs := inputs, workers := workers, fn := adapter fn }

/-- The function `IntsToStrings(ctx, items, workers, fn)`, the inner call running under the
interleaving `sched`: the two values returned, or `none` when the inner call
has not returned at the end of `sched` (or `sched` is not a run). -/
def IntsToStrings (ctx : Context) (items : Option (List Int)) (workers : Int)
    (fn : Nat → Int → String × Option GoError) (sched : List Actor) :
    Option (List String × Option GoError) :=
  match Inputs (intsArg items) with
  | (_, some err) => some ([], some (.wrapf "making inputs: " err))
  | (inputs, none) =>
      match InterfacesToInterfaces (innerCall ctx inputs workers fn) sched with
      | none => none
      | some (results, err) => some (finish results err)

/-- The invocations of `fn` made by `IntsToStrings` under `sched`. -/
def fnCalls (ctx : Context) (items : Option (List Int)) (workers : Int)
    (fn : Nat → Int → String × Option GoError) (sched : List Actor) : List (Nat × Int) :=
  match Inputs (intsArg items) with
  | (_, some _) => []
  | (inputs, none) =>
      match exec (innerCall ctx inputs workers fn) sched (init (innerCall ctx inputs workers fn)) with
      | none => []
      | some s => s.calls.filterMap (fun p =>
          match p.2 with
          | .int typedItem => some (p.1, typedItem)
          | .str _ => none)

/-! ### The calls made by the tests -/

/-- The transform of `TestParMap_basic_functionality`: `strconv.Itoa(item)`. -/
def itoaFn : Nat → Int → String × Option GoError :=
  fun _ item => (fmtD item, none)

/-- The transform of `TestParMap_error_reports_no_races`: item 3 fails. -/
def notAFanOf3 : Nat → Int → String × Option GoError :=
  fun _ item => if item = 3 then ("", some (.errorf "not a fan of 3")) else (fmtD item, none)

/-- A call of `InterfacesToInterfaces` on `int` items with
`context.Background()`. -/
def testCall (workers : Int) (items : List Int) (fn : Nat → Int → String × Option GoError) :
    Call Int String :=
  { ctx := Background, inputs := items, workers := workers, fn := fn }

/-- The same call with a context that is already done. -/
def cancelledCall (workers : Int) (items : List Int)
    (fn : Nat → Int → String × Option GoError) : Call Int String :=
  { ctx := { doneAtCall := true, canFire := false, err := .errorf "context canceled" },
    inputs := items, workers := workers, fn := fn }

/-- Worker `i` takes `n` actions in a row. -/
def turns (i n : Nat) : List Actor := List.replicate n (Actor.worker i)

/-- The calling goroutine takes `n` actions in a row. -/
def mainTurns (n : Nat) : List Actor := List.replicate n Actor.main

/-- The state of `testCall 1 [3] notAFanOf3` once the only worker has sent
the failing output and the collector is about to receive it. -/
def errorAtCollector : State Int String :=
  { main := .collect [], ws := [.recv], jobs := [], closed := false,
    out := [{ Index := 0, Value := "", Error := some (.errorf "not a fan of 3") }],
    errorCount := 1, done := false, calls := [(0, 3)] }

/-- The state of `testCall 2 [3, 0, 1, 2] notAFanOf3` right after worker 0 has
counted the failure of item 3 (index 0), while worker 1 is past the gate with
job 1 and jobs 2 and 3 are still on `jobsChan`. -/
def gateTripped : State Int String :=
  { main := .collect [],
    ws := [.send { Index := 0, Value := "", Error := some (.errorf "not a fan of 3") },
           .call { Index := 1, Value := 0, Error := none }],
    jobs := [{ Index := 2, Value := 1, Error := none }, { Index := 3, Value := 2, Error := none }],
    closed := false, out := [], errorCount := 1, done := false, calls := [(0, 3)] }

/-- The state of the same call when, from `gateTripped`, worker 1 has made its
invocation, sent the result, taken job 2 and come to the gate with it. -/
def gateReached : State Int String :=
  { main := .collect [],
    ws := [.send { Index := 0, Value := "", Error := some (.errorf "not a fan of 3") },
           .gate { Index := 2, Value := 1, Error := none }],
    jobs := [{ Index := 3, Value := 2, Error := none }],
    closed := false, out := [{ Index := 1, Value := "0", Error := none }],
    errorCount := 1, done := false, calls := [(0, 3), (1, 0)] }

/-- The state the same call ends in when, from `gateTripped`, worker 1 runs on,
then worker 0, then the collector. -/
def gateDropped : State Int String :=
  { main := (MainPC.returned [] (some (.wrapf "index 0: " (.errorf "not a fan of 3")))),
    ws := [.exited, .exited], jobs := [], closed := true, out := [], errorCount := 1,
    done := false, calls := [(0, 3), (1, 0)] }

/-! ### Bookkeeping used by the proofs -/

/-- An upper bound on the actions a worker at this program point can still
take without receiving another job. -/
def workerFuel : WorkerPC α β → Nat
  | .recv => 1
  | .sel _ => 6
  | .gate _ => 5
  | .call _ => 4
  | .ran _ _ _ => 3
  | .send _ => 2
  | .exited => 0

/-- An upper bound on the actions the calling goroutine can still take,
counting in what the workers and jobs it will still create can do. -/
def mainFuel (c : Call α β) : MainPC β → Nat
  | .entry => 2 * c.workers.toNat + 8 * c.inputs.length + 4
  | .spawn i => 2 * (c.workers.toNat - i) + (8 * c.inputs.length + 3)
  | .feed index => 7 * (c.inputs.length - index) + (c.inputs.length + 2)
  | .collect indexedOutputs => (c.inputs.length - indexedOutputs.length) + 1
  | .returned _ _ => 0

/-- An upper bound on the number of actions that can still happen from `s`. -/
def potential (c : Call α β) (s : State α β) : Nat :=
  mainFuel c s.main + (s.ws.map workerFuel).sum + 6 * s.jobs.length
    + (if c.ctx.canFire && !s.done then 1 else 0)

/-- A view of `step`: every way a state can change in one action. -/
inductive StepView (c : Call α β) (s : State α β) : State α β → Prop where
  | entryWorkers (hm : s.main = .entry) (hw : c.workers < 1) :
      StepView c s { s with main := (MainPC.returned []
        (some (.errorf ("must have at least one worker, specified " ++ fmtD c.workers)))) }
  | entryEmpty (hm : s.main = .entry) (hw : ¬ c.workers < 1) (hn : c.inputs.length = 0) :
      StepView c s { s with main := .returned [] none }
  | entryGo (hm : s.main = .entry) (hw : ¬ c.workers < 1) (hn : ¬ c.inputs.length = 0) :
      StepView c s { s with main := .spawn 0 }
  | spawnOne (i : Nat) (hm : s.main = .spawn i) (hi : (i : Int) < c.workers) :
      StepView c s { s with main := .spawn (i + 1), ws := s.ws ++ [.recv] }
  | spawnEnd (i : Nat) (hm : s.main = .spawn i) (hi : ¬ (i : Int) < c.workers) :
      StepView c s { s with main := .feed 0 }
  | feedOne (index : Nat) (input : α) (hm : s.main = .feed index)
      (hx : c.inputs[index]? = some input) (hcap : s.jobs.length < c.inputs.length) :
      StepView c s { s with main := .feed (index + 1),
                            jobs := s.jobs ++ [{ Index := index, Value := input, Error := none }] }
  | feedEnd (index : Nat) (hm : s.main = .feed index) (hx : c.inputs[index]? = none) :
      StepView c s { s with main := .collect [] }
  | collectErr (acc : List (indexedInterface β)) (o : indexedInterface β)
      (rest : List (indexedInterface β)) (e : GoError) (hm : s.main = .collect acc)
      (ho : s.out = o :: rest) (he : o.Error = some e) :
      StepView c s { s with main := (MainPC.returned []
                              (some (.wrapf ("index " ++ fmtD o.Index ++ ": ") e))),
                            out := rest, closed := true }
  | collectLast (acc : List (indexedInterface β)) (o : indexedInterface β)
      (rest : List (indexedInterface β)) (hm : s.main = .collect acc)
      (ho : s.out = o :: rest) (he : o.Error = none)
      (hlen : (acc ++ [o]).length ≥ c.inputs.length) :
      StepView c s { s with main := (MainPC.returned
                              ((sortByIndex (acc ++ [o])).map (fun o => o.Value)) none),
                            out := rest, closed := true }
  | collectMore (acc : List (indexedInterface β)) (o : indexedInterface β)
      (rest : List (indexedInterface β)) (hm : s.main = .collect acc)
      (ho : s.out = o :: rest) (he : o.Error = none)
      (hlen : ¬ (acc ++ [o]).length ≥ c.inputs.length) :
      StepView c s { s with main := .collect (acc ++ [o]), out := rest }
  | ctxReturn (acc : List (indexedInterface β)) (hm : s.main = .collect acc)
      (hd : s.done = true) :
      StepView c s { s with main := .returned [] (some c.ctx.err), closed := true }
  | recvJob (i : Nat) (job : indexedInterface α) (rest : List (indexedInterface α))
      (hw : s.ws[i]? = some .recv) (hj : s.jobs = job :: rest) :
      StepView c s { s with ws := s.ws.set i (.sel job), jobs := rest }
  | recvClosed (i : Nat) (hw : s.ws[i]? = some .recv) (hj : s.jobs = [])
      (hc : s.closed = true) :
      StepView c s { s with ws := s.ws.set i .exited }
  | selDone (i : Nat) (job : indexedInterface α) (hw : s.ws[i]? = some (.sel job))
      (hd : s.done = true) :
      StepView c s { s with ws := s.ws.set i .exited }
  | selGo (i : Nat) (job : indexedInterface α) (hw : s.ws[i]? = some (.sel job))
      (hd : s.done = false) :
      StepView c s { s with ws := s.ws.set i (.gate job) }
  | gateStop (i : Nat) (job : indexedInterface α) (hw : s.ws[i]? = some (.gate job))
      (he : s.errorCount > 0) :
      StepView c s { s with ws := s.ws.set i .exited }
  | gateGo (i : Nat) (job : indexedInterface α) (hw : s.ws[i]? = some (.gate job))
      (he : s.errorCount = 0) :
      StepView c s { s with ws := s.ws.set i (.call job) }
  | callFn (i : Nat) (job : indexedInterface α) (hw : s.ws[i]? = some (.call job)) :
      StepView c s { s with
        ws := s.ws.set i (.ran job (c.fn job.Index job.Value).1 (c.fn job.Index job.Value).2),
        calls := s.calls ++ [(job.Index, job.Value)] }
  | bump (i : Nat) (job : indexedInterface α) (output : β) (err : Option GoError)
      (hw : s.ws[i]? = some (.ran job output err)) :
      StepView c s { s with
        ws := s.ws.set i (.send { Index := job.Index, Value := output, Error := err }),
        errorCount := if err.isSome then s.errorCount + 1 else s.errorCount }
  | sendOut (i : Nat) (o : indexedInterface β) (hw : s.ws[i]? = some (.send o))
      (hcap : s.out.length < c.inputs.length) :
      StepView c s { s with ws := s.ws.set i .recv, out := s.out ++ [o] }
  | fire (hc : c.ctx.canFire = true) (hd : s.done = false) :
      StepView c s { s with done := true }

/-! ### The invariant of the machine -/

/-- The job index a worker has in hand, if any. -/
def held : WorkerPC α β → List Nat
  | .sel job => [job.Index]
  | .gate job => [job.Index]
  | .call job => [job.Index]
  | .ran job _ _ => [job.Index]
  | .send output => [output.Index]
  | .recv => []
  | .exited => []

/-- The job indices in the hands of the calling goroutine: those it has yet to
put on `jobsChan`, later those it has collected. -/
def mainTokens (c : Call α β) : MainPC β → List Nat
  | .entry => List.range c.inputs.length
  | .spawn _ => List.range c.inputs.length
  | .feed index => List.range' index (c.inputs.length - index)
  | .collect indexedOutputs => indexedOutputs.map (fun o => o.Index)
  | .returned _ _ => []

/-- The job indices in the hands of the workers. -/
def heldSum (ws : List (WorkerPC α β)) : Multiset Nat :=
  (ws.map (fun w => (held w : Multiset Nat))).sum

/-- Every job index that is still somewhere in the call. -/
def tokens (c : Call α β) (s : State α β) : Multiset Nat :=
  (mainTokens c s.main : Multiset Nat) + (s.jobs.map (fun j => j.Index) : Multiset Nat)
    + heldSum s.ws + (s.out.map (fun o => o.Index) : Multiset Nat)

/-- A job record carries the input at its index. -/
def GoodJob (c : Call α β) (j : indexedInterface α) : Prop :=
  c.inputs[j.Index]? = some j.Value

/-- An output record carries what `fn` returns for the input at its index. -/
def GoodOut (c : Call α β) (o : indexedInterface β) : Prop :=
  ∃ x, c.inputs[o.Index]? = some x ∧ c.fn o.Index x = (o.Value, o.Error)

/-- What a worker has in hand is right; an error about to be sent has been
counted in `errorCount`. -/
def GoodWorker (c : Call α β) (errorCount : Nat) : WorkerPC α β → Prop
  | .sel job => GoodJob c job
  | .gate job => GoodJob c job
  | .call job => GoodJob c job
  | .ran job output err => GoodJob c job ∧ c.fn job.Index job.Value = (output, err)
  | .send output => GoodOut c output ∧ (output.Error.isSome = true → 0 < errorCount)
  | .recv => True
  | .exited => True

/-- One for a worker past the gate that has not called `fn` yet. -/
def isArmed : WorkerPC α β → Nat
  | .call _ => 1
  | _ => 0

/-- One for a worker in the `default` branch of its `select`. -/
def isPastSel : WorkerPC α β → Nat
  | .gate _ => 1
  | .call _ => 1
  | .ran _ _ _ => 1
  | .send _ => 1
  | _ => 0

/-- One for a worker that has returned. -/
def isExited : WorkerPC α β → Nat
  | .exited => 1
  | _ => 0

/-- One for a worker whose call of `fn` has just returned an error, which it
has not counted yet. -/
def isErrRan : WorkerPC α β → Nat
  | .ran _ _ err => if err.isSome then 1 else 0
  | _ => 0

/-- One for a worker about to send an output that carries an error. -/
def isErrSend : WorkerPC α β → Nat
  | .send output => if output.Error.isSome then 1 else 0
  | _ => 0

/-- What the calling goroutine knows at each program point. -/
def Phase (c : Call α β) (s : State α β) : Prop :=
  match s.main with
  | .entry => s.ws.length = 0
  | .spawn i => s.ws.length = i ∧ ¬ c.workers < 1 ∧ c.inputs.length ≠ 0 ∧ (i : Int) ≤ c.workers
  | .feed _ => (s.ws.length : Int) = c.workers ∧ ¬ c.workers < 1 ∧ c.inputs.length ≠ 0
  | .collect indexedOutputs =>
      (s.ws.length : Int) = c.workers ∧ ¬ c.workers < 1
        ∧ indexedOutputs.length < c.inputs.length
  | .returned _ _ => True

/-- The values a successful call returns: `fn`'s value for every input, in
input order. -/
def expected (c : Call α β) : List β :=
  c.inputs.enum.map (fun p => (c.fn p.1 p.2).1)

/-- The pairs of values `InterfacesToInterfaces` can return. -/
def Post (c : Call α β) (done : Bool) (res : List β) (err : Option GoError) : Prop :=
  if c.workers < 1 then
    res = [] ∧ err = some (.errorf ("must have at least one worker, specified " ++ fmtD c.workers))
  else if c.inputs.length = 0 then
    res = [] ∧ err = none
  else
    (res = [] ∧ err = some c.ctx.err ∧ done = true)
    ∨ (res = [] ∧ ∃ i x e, c.inputs[i]? = some x ∧ (c.fn i x).2 = some e
        ∧ err = some (.wrapf ("index " ++ fmtD (i : Nat) ++ ": ") e))
    ∨ (err = none ∧ res = expected c ∧ ∀ i x, c.inputs[i]? = some x → (c.fn i x).2 = none)

/-- How many workers `f` counts. -/
def countWs (f : WorkerPC α β → Nat) (ws : List (WorkerPC α β)) : Nat := (ws.map f).sum

/-- The records in flight are right: jobs carry their input, outputs carry
what `fn` returns, and an error on its way has been counted. -/
structure Goods (c : Call α β) (s : State α β) : Prop where
  jobsGood : ∀ j ∈ s.jobs, GoodJob c j
  wsGood : ∀ w ∈ s.ws, GoodWorker c s.errorCount w
  outGood : ∀ o ∈ s.out, GoodOut c o ∧ (o.Error.isSome = true → 0 < s.errorCount)
  accGood : ∀ acc, s.main = .collect acc → ∀ o ∈ acc, GoodOut c o ∧ o.Error = none

/-- The invariant of the machine: it holds in every reachable state. -/
structure Inv (c : Call α β) (s : State α β) : Prop where
  /-- no job index is duplicated -/
  tok : tokens c s ≤ Multiset.range c.inputs.length
  phase : Phase c s
  wsLen : s.ws.length ≤ c.workers.toNat
  /-- the channel `jobsChan` is closed only by the deferred call -/
  closedRet : s.closed = true → s.result.isSome = true
  doneCtx : s.done = true → c.ctx.doneAtCall = true ∨ c.ctx.canFire = true
  goods : Goods c s
  /-- a counted error is on its way to the collector until the call returns -/
  errSeen : 0 < s.errorCount → s.result.isSome = true
      ∨ 0 < countWs isErrSend s.ws + s.out.countP (fun o => o.Error.isSome)
  /-- before any cancellation, error or return, no job is lost and no worker
  has left -/
  conserved : s.done = false → s.errorCount = 0 → s.result = none →
      tokens c s = Multiset.range c.inputs.length ∧ countWs isExited s.ws = 0
  /-- once an error is counted, some worker is not past the gate -/
  armed : 0 < s.errorCount → countWs isArmed s.ws + 1 ≤ s.ws.length
  ret : ∀ res err, s.main = .returned res err → Post c s.done res err

end parmap

/-! # Theorems -/

namespace parmap

variable {α β : Type}

/-- Every action of `step` is one of the cases of `StepView`. -/
theorem step_view {c : Call α β} {a : Actor} {s t : State α β}
    (h : step c a s = some t) : StepView c s t := by
  cases a with
  | main =>
      simp only [step, mainStep] at h
      split at h
      · rename_i hm
        split at h
        · rename_i hw
          cases h; exact .entryWorkers hm hw
        · rename_i hw
          split at h
          · rename_i hn
            cases h; exact .entryEmpty hm hw hn
          · rename_i hn
            cases h; exact .entryGo hm hw hn
      · rename_i i hm
        split at h
        · rename_i hi
          cases h; exact .spawnOne i hm hi
        · rename_i hi
          cases h; exact .spawnEnd i hm hi
      · rename_i k hm
        split at h
        · rename_i x hx
          split at h
          · rename_i hcap
            cases h; exact .feedOne k x hm hx hcap
          · cases h
        · rename_i hx
          cases h; exact .feedEnd k hm hx
      · rename_i acc hm
        split at h
        · cases h
        · rename_i o rest ho
          split at h
          · rename_i e he
            cases h; exact .collectErr acc o rest e hm ho he
          · rename_i he
            split at h
            · rename_i hlen
              cases h; exact .collectLast acc o rest hm ho he hlen
            · rename_i hlen
              cases h; exact .collectMore acc o rest hm ho he hlen
      · cases h
  | mainCtx =>
      simp only [step, mainCtxStep] at h
      split at h
      · rename_i acc hm
        split at h
        · rename_i hd
          cases h; exact .ctxReturn acc hm hd
        · cases h
      · cases h
  | worker i =>
      simp only [step, workerStep] at h
      split at h
      · cases h
      · rename_i hw
        split at h
        · rename_i job rest hj
          cases h; exact .recvJob i job rest hw hj
        · rename_i hj
          split at h
          · rename_i hc
            cases h; exact .recvClosed i hw hj hc
          · cases h
      · rename_i job hw
        split at h
        · rename_i hd
          cases h; exact .selDone i job hw hd
        · rename_i hd
          cases h; exact .selGo i job hw (by simpa using hd)
      · rename_i job hw
        split at h
        · rename_i he
          cases h; exact .gateStop i job hw he
        · rename_i he
          cases h; exact .gateGo i job hw (by omega)
      · rename_i job hw
        cases h; exact .callFn i job hw
      · rename_i job output err hw
        cases h; exact .bump i job output err hw
      · rename_i o hw
        split at h
        · rename_i hcap
          cases h; exact .sendOut i o hw hcap
        · cases h
      · cases h
  | cancel =>
      simp only [step, cancelStep] at h
      split at h
      · rename_i hc
        simp at hc
        cases h; exact .fire hc.1 hc.2
      · cases h

end parmap
namespace parmap

variable {α β : Type}

/-! ### Every run is finite -/

theorem sum_map_set {M : Type} [AddCommMonoid M] {γ : Type} (f : γ → M) :
    ∀ (ws : List γ) (i : Nat) (w v : γ), ws[i]? = some w →
      ((ws.set i v).map f).sum + f w = (ws.map f).sum + f v
  | [], i, w, v, h => by simp at h
  | x :: xs, 0, w, v, h => by
      simp at h; subst h
      simp [add_comm, add_left_comm]
  | x :: xs, i + 1, w, v, h => by
      simp only [List.getElem?_cons_succ] at h
      have ih := sum_map_set f xs i w v h
      simp only [List.set_cons_succ, List.map_cons, List.sum_cons, add_assoc, ih]

theorem lt_length_of_getElem? {γ : Type} {xs : List γ} {i : Nat} {x : γ}
    (h : xs[i]? = some x) : i < xs.length := by
  rcases List.getElem?_eq_some.1 h with ⟨hi, _⟩
  exact hi

theorem potential_step {c : Call α β} {s t : State α β} (h : StepView c s t) :
    potential c t < potential c s := by
  cases h with
  | feedOne index input hm hx hcap =>
      have := lt_length_of_getElem? hx
      simp_all [potential, mainFuel]; omega
  | recvJob i job rest hw hj =>
      have := sum_map_set workerFuel s.ws i _ (.sel job) hw
      simp_all [potential, workerFuel, -List.map_set]; omega
  | recvClosed i hw hj hc =>
      have := sum_map_set workerFuel s.ws i _ .exited hw
      simp_all [potential, workerFuel, -List.map_set]; omega
  | selDone i job hw hd =>
      have := sum_map_set workerFuel s.ws i _ .exited hw
      simp_all [potential, workerFuel, -List.map_set]; omega
  | selGo i job hw hd =>
      have := sum_map_set workerFuel s.ws i _ (.gate job) hw
      simp_all [potential, workerFuel, -List.map_set]; omega
  | gateStop i job hw he =>
      have := sum_map_set workerFuel s.ws i _ .exited hw
      simp_all [potential, workerFuel, -List.map_set]; omega
  | gateGo i job hw he =>
      have := sum_map_set workerFuel s.ws i _ (.call job) hw
      simp_all [potential, workerFuel, -List.map_set]; omega
  | callFn i job hw =>
      have := sum_map_set workerFuel s.ws i _
        (.ran job (c.fn job.Index job.Value).1 (c.fn job.Index job.Value).2) hw
      simp_all [potential, workerFuel, -List.map_set]; omega
  | bump i job output err hw =>
      have := sum_map_set workerFuel s.ws i _
        (.send { Index := job.Index, Value := output, Error := err }) hw
      simp_all [potential, workerFuel, -List.map_set]; omega
  | sendOut i o hw hcap =>
      have := sum_map_set workerFuel s.ws i _ .recv hw
      simp_all [potential, workerFuel, -List.map_set]; omega
  | _ => simp_all [potential, mainFuel, workerFuel] <;> omega

theorem exec_potential {c : Call α β} :
    ∀ (sched : List Actor) (s t : State α β), exec c sched s = some t →
      sched.length + potential c t ≤ potential c s
  | [], s, t, h => by simp [exec] at h; subst h; simp
  | a :: rest, s, t, h => by
      simp only [exec] at h
      split at h
      · rename_i u hu
        have h1 := potential_step (step_view hu)
        have h2 := exec_potential rest u t h
        simp only [List.length_cons]; omega
      · cases h


/-! ### No job index is duplicated -/

theorem range'_succ_left (k n : Nat) (h : k < n) :
    List.range' k (n - k) = k :: List.range' (k + 1) (n - (k + 1)) := by
  have : n - k = (n - (k + 1)) + 1 := by omega
  rw [this, List.range'_succ]

/-- The multiset of indices held by the workers, after one of them moves. -/
theorem held_set (ws : List (WorkerPC α β)) (i : Nat) (w v : WorkerPC α β)
    (h : ws[i]? = some w) (a b : Multiset Nat) (ha : (held w : Multiset Nat) = a)
    (hb : (held v : Multiset Nat) = b) :
    heldSum (ws.set i v) + a = heldSum ws + b := by
  subst ha hb
  exact sum_map_set (fun w => (held w : Multiset Nat)) ws i w v h

theorem tokens_step {c : Call α β} {s t : State α β} (h : StepView c s t) :
    ∃ d, tokens c t + d = tokens c s
      ∧ (d = 0 ∨ t.result.isSome = true ∨ t.done = true ∨ 0 < t.errorCount) := by
  cases h with
  | entryWorkers hm hw =>
      refine ⟨(List.range c.inputs.length : Multiset Nat), ?_, Or.inr (Or.inl rfl)⟩
      simp only [tokens, mainTokens, hm, Multiset.coe_nil]; abel
  | entryEmpty hm hw hn =>
      refine ⟨(List.range c.inputs.length : Multiset Nat), ?_, Or.inr (Or.inl rfl)⟩
      simp only [tokens, mainTokens, hm, Multiset.coe_nil]; abel
  | entryGo hm hw hn => exact ⟨0, by simp only [tokens, mainTokens, hm, add_zero], Or.inl rfl⟩
  | spawnOne i hm hi =>
      refine ⟨0, ?_, Or.inl rfl⟩
      simp only [tokens, mainTokens, hm, heldSum, List.map_append, List.sum_append, List.map_cons,
        List.map_nil, List.sum_cons, List.sum_nil, held, Multiset.coe_nil, add_zero]
  | spawnEnd i hm hi =>
      exact ⟨0, by simp only [tokens, mainTokens, hm, List.range_eq_range', Nat.sub_zero, add_zero], Or.inl rfl⟩
  | feedOne index input hm hx hcap =>
      have hlt := lt_length_of_getElem? hx
      refine ⟨0, ?_, Or.inl rfl⟩
      simp only [tokens, mainTokens, hm, range'_succ_left index _ hlt, List.map_append,
        List.map_cons, List.map_nil, ← Multiset.coe_add, ← Multiset.cons_coe,
        ← Multiset.singleton_add, Multiset.coe_nil]
      abel
  | feedEnd index hm hx =>
      have h0 : c.inputs.length - index = 0 := by
        have := List.getElem?_eq_none_iff.1 hx
        omega
      refine ⟨0, ?_, Or.inl rfl⟩
      simp only [tokens, mainTokens, hm, h0, List.range'_zero, List.map_nil, add_zero]
  | collectErr acc o rest e hm ho he =>
      refine ⟨(acc.map (fun o => o.Index) : Multiset Nat) + {o.Index}, ?_, Or.inr (Or.inl rfl)⟩
      simp only [tokens, mainTokens, hm, ho, List.map_cons, ← Multiset.cons_coe,
        ← Multiset.singleton_add, Multiset.coe_nil]
      abel
  | collectLast acc o rest hm ho he hlen =>
      refine ⟨(acc.map (fun o => o.Index) : Multiset Nat) + {o.Index}, ?_, Or.inr (Or.inl rfl)⟩
      simp only [tokens, mainTokens, hm, ho, List.map_cons, ← Multiset.cons_coe,
        ← Multiset.singleton_add, Multiset.coe_nil]
      abel
  | collectMore acc o rest hm ho he hlen =>
      refine ⟨0, ?_, Or.inl rfl⟩
      simp only [tokens, mainTokens, hm, ho, List.map_append, List.map_cons, List.map_nil,
        ← Multiset.coe_add, ← Multiset.cons_coe, ← Multiset.singleton_add, Multiset.coe_nil]
      abel
  | ctxReturn acc hm hd =>
      refine ⟨(acc.map (fun o => o.Index) : Multiset Nat), ?_, Or.inr (Or.inl rfl)⟩
      simp only [tokens, mainTokens, hm, Multiset.coe_nil]; abel
  | recvJob i job rest hw hj =>
      have e := held_set s.ws i .recv (.sel job) hw 0 {job.Index} rfl rfl
      rw [add_zero] at e
      refine ⟨0, ?_, Or.inl rfl⟩
      simp only [tokens, hj, e, List.map_cons, ← Multiset.cons_coe, ← Multiset.singleton_add]
      abel
  | recvClosed i hw hj hc =>
      have e := held_set s.ws i .recv .exited hw 0 0 rfl rfl
      rw [add_zero, add_zero] at e
      exact ⟨0, by simp only [tokens, e, add_zero], Or.inl rfl⟩
  | selDone i job hw hd =>
      have e := held_set s.ws i (.sel job) .exited hw {job.Index} 0 rfl rfl
      rw [add_zero] at e
      refine ⟨{job.Index}, ?_, Or.inr (Or.inr (Or.inl hd))⟩
      simp only [tokens, ← e]
      abel
  | selGo i job hw hd =>
      have e := add_right_cancel
        (held_set s.ws i (.sel job) (.gate job) hw {job.Index} {job.Index} rfl rfl)
      exact ⟨0, by simp only [tokens, e, add_zero], Or.inl rfl⟩
  | gateStop i job hw he =>
      have e := held_set s.ws i (.gate job) .exited hw {job.Index} 0 rfl rfl
      rw [add_zero] at e
      refine ⟨{job.Index}, ?_, Or.inr (Or.inr (Or.inr he))⟩
      simp only [tokens, ← e]
      abel
  | gateGo i job hw he =>
      have e := add_right_cancel
        (held_set s.ws i (.gate job) (.call job) hw {job.Index} {job.Index} rfl rfl)
      exact ⟨0, by simp only [tokens, e, add_zero], Or.inl rfl⟩
  | callFn i job hw =>
      have e := add_right_cancel (held_set s.ws i (.call job)
        (.ran job (c.fn job.Index job.Value).1 (c.fn job.Index job.Value).2) hw
        {job.Index} {job.Index} rfl rfl)
      exact ⟨0, by simp only [tokens, e, add_zero], Or.inl rfl⟩
  | bump i job output err hw =>
      have e := add_right_cancel (held_set s.ws i (.ran job output err)
        (.send { Index := job.Index, Value := output, Error := err }) hw
        {job.Index} {job.Index} rfl rfl)
      exact ⟨0, by simp only [tokens, e, add_zero], Or.inl rfl⟩
  | sendOut i o hw hcap =>
      have e := held_set s.ws i (.send o) .recv hw {o.Index} 0 rfl rfl
      rw [add_zero] at e
      refine ⟨0, ?_, Or.inl rfl⟩
      simp only [tokens, ← e, List.map_append, List.map_cons, List.map_nil,
        ← Multiset.coe_add, ← Multiset.cons_coe, ← Multiset.singleton_add, Multiset.coe_nil]
      abel
  | fire hc hd => exact ⟨0, by simp only [tokens, add_zero], Or.inl rfl⟩

theorem tokens_step_le {c : Call α β} {s t : State α β} (h : StepView c s t) :
    tokens c t ≤ tokens c s := by
  obtain ⟨d, hd, _⟩ := tokens_step h
  rw [← hd]
  exact Multiset.le_add_right _ _


/-! ### What the calling goroutine knows; simple facts -/

theorem phase_step {c : Call α β} {s t : State α β} (hP : Phase c s)
    (h : StepView c s t) : Phase c t := by
  cases h with
  | entryGo hm hw hn =>
      simp only [Phase, hm] at hP
      simp only [Phase, hP]
      exact ⟨trivial, hw, hn, by omega⟩
  | spawnOne i hm hi =>
      simp only [Phase, hm] at hP
      simp only [Phase, List.length_append, List.length_singleton]
      exact ⟨by omega, hP.2.1, hP.2.2.1, by push_cast; omega⟩
  | spawnEnd i hm hi =>
      simp only [Phase, hm] at hP
      simp only [Phase]
      exact ⟨by omega, hP.2.1, hP.2.2.1⟩
  | feedOne index input hm hx hcap =>
      simp only [Phase, hm] at hP
      simpa only [Phase] using hP
  | feedEnd index hm hx =>
      simp only [Phase, hm] at hP
      simp only [Phase, List.length_nil]
      exact ⟨hP.1, hP.2.1, by omega⟩
  | collectMore acc o rest hm ho he hlen =>
      simp only [Phase, hm] at hP
      simp only [Phase]
      exact ⟨hP.1, hP.2.1, by omega⟩
  | fire hc hd => simpa only [Phase] using hP
  | entryWorkers hm hw => simp only [Phase]
  | entryEmpty hm hw hn => simp only [Phase]
  | collectErr acc o rest e hm ho he => simp only [Phase]
  | collectLast acc o rest hm ho he hlen => simp only [Phase]
  | ctxReturn acc hm hd => simp only [Phase]
  | _ => simpa only [Phase, List.length_set] using hP

theorem wsLen_step {c : Call α β} {s t : State α β} (hP : Phase c s)
    (hL : s.ws.length ≤ c.workers.toNat) (h : StepView c s t) :
    t.ws.length ≤ c.workers.toNat := by
  cases h with
  | spawnOne i hm hi =>
      simp only [Phase, hm] at hP
      simp only [List.length_append, List.length_singleton]
      omega
  | _ => simpa only [List.length_set] using hL

theorem closedRet_step {c : Call α β} {s t : State α β}
    (hC : s.closed = true → s.result.isSome = true) (h : StepView c s t) :
    t.closed = true → t.result.isSome = true := by
  cases h <;> simp_all [State.result]

theorem doneCtx_step {c : Call α β} {s t : State α β}
    (hD : s.done = true → c.ctx.doneAtCall = true ∨ c.ctx.canFire = true) (h : StepView c s t) :
    t.done = true → c.ctx.doneAtCall = true ∨ c.ctx.canFire = true := by
  cases h <;> simp_all


/-! ### The records in flight are right -/

theorem goodWorker_mono {c : Call α β} {n m : Nat} {w : WorkerPC α β}
    (h : GoodWorker c n w) (hnm : n ≤ m) : GoodWorker c m w := by
  cases w <;> simp_all [GoodWorker]
  intro he; have := h.2 he; omega

/-- After worker `i` moves to `v`, every worker is still right. -/
theorem wsGood_set {c : Call α β} {n : Nat} {ws : List (WorkerPC α β)} (i : Nat)
    {v : WorkerPC α β} (h : ∀ w ∈ ws, GoodWorker c n w) (hv : GoodWorker c n v) :
    ∀ w ∈ ws.set i v, GoodWorker c n w := by
  intro w hw
  rcases List.mem_or_eq_of_mem_set hw with h1 | h1
  · exact h w h1
  · exact h1 ▸ hv

theorem goods_step {c : Call α β} {s t : State α β} (hG : Goods c s)
    (h : StepView c s t) : Goods c t := by
  obtain ⟨hj, hw, ho, ha⟩ := hG
  cases h with
  | entryWorkers hm hw0 => exact ⟨hj, hw, ho, by simp⟩
  | entryEmpty hm hw0 hn => exact ⟨hj, hw, ho, by simp⟩
  | entryGo hm hw0 hn => exact ⟨hj, hw, ho, by simp⟩
  | spawnOne i hm hi =>
      refine ⟨hj, ?_, ho, by simp⟩
      intro w hmem
      rcases List.mem_append.1 hmem with h1 | h1
      · exact hw w h1
      · simp at h1; subst h1; simp [GoodWorker]
  | spawnEnd i hm hi => exact ⟨hj, hw, ho, by simp⟩
  | feedOne index input hm hx hcap =>
      refine ⟨?_, hw, ho, by simp⟩
      intro j hmem
      rcases List.mem_append.1 hmem with h1 | h1
      · exact hj j h1
      · simp at h1; subst h1; simpa [GoodJob] using hx
  | feedEnd index hm hx => exact ⟨hj, hw, ho, by simp⟩
  | collectErr acc o rest e hm hout he =>
      exact ⟨hj, hw, fun x hx => ho x (by simp [hout, hx]), by simp⟩
  | collectLast acc o rest hm hout he hlen =>
      exact ⟨hj, hw, fun x hx => ho x (by simp [hout, hx]), by simp⟩
  | collectMore acc o rest hm hout he hlen =>
      refine ⟨hj, hw, fun x hx => ho x (by simp [hout, hx]), ?_⟩
      intro acc1 h1 x hx
      simp at h1; subst h1
      rcases List.mem_append.1 hx with h2 | h2
      · exact ha acc hm x h2
      · simp at h2; subst h2
        exact ⟨(ho x (by simp [hout])).1, he⟩
  | ctxReturn acc hm hd => exact ⟨hj, hw, ho, by simp⟩
  | recvJob i job rest hwi hjobs =>
      refine ⟨fun x hx => hj x (by simp [hjobs, hx]), wsGood_set i hw ?_, ho, ha⟩
      exact hj job (by simp [hjobs])
  | recvClosed i hwi hjobs hc => exact ⟨hj, wsGood_set i hw (by simp [GoodWorker]), ho, ha⟩
  | selDone i job hwi hd => exact ⟨hj, wsGood_set i hw (by simp [GoodWorker]), ho, ha⟩
  | selGo i job hwi hd =>
      exact ⟨hj, wsGood_set i hw (by simpa [GoodWorker] using hw _ (List.getElem?_mem hwi)), ho, ha⟩
  | gateStop i job hwi he => exact ⟨hj, wsGood_set i hw (by simp [GoodWorker]), ho, ha⟩
  | gateGo i job hwi he =>
      exact ⟨hj, wsGood_set i hw (by simpa [GoodWorker] using hw _ (List.getElem?_mem hwi)), ho, ha⟩
  | callFn i job hwi =>
      have h1 := hw _ (List.getElem?_mem hwi)
      exact ⟨hj, wsGood_set i hw (by simpa [GoodWorker] using h1), ho, ha⟩
  | bump i job output err hwi =>
      have h1 := hw _ (List.getElem?_mem hwi)
      have hle : s.errorCount ≤ (if err.isSome then s.errorCount + 1 else s.errorCount) := by
        split <;> omega
      refine ⟨hj, wsGood_set i (fun w hmem => goodWorker_mono (hw w hmem) hle) ?_,
        fun x hx => ⟨(ho x hx).1, fun hh => lt_of_lt_of_le ((ho x hx).2 hh) hle⟩, ha⟩
      simp only [GoodWorker, GoodJob] at h1
      simp only [GoodWorker, GoodOut]
      refine ⟨⟨job.Value, h1.1, h1.2⟩, ?_⟩
      intro hh
      simp [hh]
  | sendOut i o hwi hcap =>
      have h1 := hw _ (List.getElem?_mem hwi)
      refine ⟨hj, wsGood_set i hw (by simp [GoodWorker]), ?_, ha⟩
      intro x hx
      rcases List.mem_append.1 hx with h2 | h2
      · exact ho x h2
      · simp at h2; subst h2; simpa [GoodWorker] using h1
  | fire hc hd => exact ⟨hj, hw, ho, ha⟩


/-! ### The reordering stage -/

/-- The result of `sortByIndex` is a rearrangement of its argument. -/
theorem sortByIndex_perm {γ : Type} (xs : List (indexedInterface γ)) :
    (sortByIndex xs).Perm xs :=
  List.perm_insertionSort _ xs

/-- After `sortByIndex` the indices are in non-decreasing order. -/
theorem sortByIndex_sorted {γ : Type} (xs : List (indexedInterface γ)) :
    ((sortByIndex xs).map (fun o => o.Index)).Sorted (fun a b => a ≤ b) := by
  have total : IsTotal (indexedInterface γ) (fun a b => ¬ (Less b a = true)) :=
    ⟨fun a b => by simp only [Less, decide_eq_true_eq]; omega⟩
  have trans : IsTrans (indexedInterface γ) (fun a b => ¬ (Less b a = true)) :=
    ⟨fun a b d => by simp only [Less, decide_eq_true_eq]; omega⟩
  have h := List.sorted_insertionSort (fun a b : indexedInterface γ => ¬ (Less b a = true)) xs
  unfold sortByIndex
  rw [List.Sorted, List.pairwise_map]
  refine List.Pairwise.imp ?_ h
  intro a b hab
  simpa [Less] using hab

/-- Sorting records whose indices are exactly `0 .. n-1` puts index `i` at
position `i`. -/
theorem sortByIndex_index {γ : Type} (xs : List (indexedInterface γ)) (n : Nat)
    (h : ((xs.map (fun o => o.Index) : List Nat) : Multiset Nat) = Multiset.range n) :
    (sortByIndex xs).map (fun o => o.Index) = List.range n := by
  have h1 : ((sortByIndex xs).map (fun o => o.Index)).Perm (List.range n) := by
    have h2 : (xs.map (fun o => o.Index)).Perm (List.range n) := by
      rw [← Multiset.coe_eq_coe]; exact h
    exact ((sortByIndex_perm xs).map _).trans h2
  have h3 : (List.range n).Sorted (fun a b => a ≤ b) :=
    (List.sorted_lt_range n).le_of_lt
  exact List.eq_of_perm_of_sorted h1 (sortByIndex_sorted xs) h3

/-- The collected outputs, once all are there, sort into the expected result. -/
theorem sorted_values {c : Call α β} (xs : List (indexedInterface β))
    (hgood : ∀ o ∈ xs, GoodOut c o ∧ o.Error = none)
    (h : ((xs.map (fun o => o.Index) : List Nat) : Multiset Nat)
      = Multiset.range c.inputs.length) :
    (sortByIndex xs).map (fun o => o.Value) = expected c
      ∧ ∀ i x, c.inputs[i]? = some x → (c.fn i x).2 = none := by
  have hidx := sortByIndex_index xs _ h
  have hgood2 : ∀ o ∈ sortByIndex xs, GoodOut c o ∧ o.Error = none :=
    fun o ho => hgood o ((sortByIndex_perm xs).mem_iff.1 ho)
  have key : ∀ n x, c.inputs[n]? = some x →
      ∃ o, (sortByIndex xs)[n]? = some o ∧ c.fn n x = (o.Value, none) := by
    intro n x hx
    have hn := lt_length_of_getElem? hx
    have hlen : (sortByIndex xs).length = c.inputs.length := by
      have := congrArg List.length hidx
      simpa using this
    have hn2 : n < (sortByIndex xs).length := by omega
    refine ⟨(sortByIndex xs)[n], List.getElem?_eq_getElem hn2, ?_⟩
    have hi : ((sortByIndex xs)[n]).Index = n := by
      have := congrArg (fun l => l[n]?) hidx
      simp only [List.getElem?_map, List.getElem?_eq_getElem hn2, Option.map_some',
        List.getElem?_range hn] at this
      exact Option.some.inj this
    obtain ⟨⟨y, hy, hf⟩, he⟩ := hgood2 _ (List.getElem_mem hn2)
    rw [hi] at hy hf
    rw [hx] at hy
    cases hy
    rw [hf, he]
  constructor
  · apply List.ext_getElem?
    intro n
    simp only [expected, List.getElem?_map, List.getElem?_enum]
    cases hx : c.inputs[n]? with
    | none =>
        have hn := List.getElem?_eq_none_iff.1 hx
        have hlen : (sortByIndex xs).length = c.inputs.length := by
          have := congrArg List.length hidx
          simpa using this
        rw [List.getElem?_eq_none_iff.2 (by omega)]
        rfl
    | some x =>
        obtain ⟨o, ho, hf⟩ := key n x hx
        simp [ho, hf]
  · intro i x hx
    obtain ⟨o, _, hf⟩ := key i x hx
    rw [hf]


/-! ### Counting workers -/

/-- A count over the workers, after one of them moves. -/
theorem countWs_set (f : WorkerPC α β → Nat) (ws : List (WorkerPC α β)) (i : Nat)
    (w v : WorkerPC α β) (h : ws[i]? = some w) (a b : Nat) (ha : f w = a) (hb : f v = b) :
    countWs f (ws.set i v) + a = countWs f ws + b := by
  subst ha hb
  exact sum_map_set f ws i w v h

theorem countWs_append (f : WorkerPC α β → Nat) (ws : List (WorkerPC α β))
    (w : WorkerPC α β) : countWs f (ws ++ [w]) = countWs f ws + f w := by
  simp [countWs]

/-- A worker that is not past the gate leaves room among the armed ones. -/
theorem armed_lt_length :
    ∀ (ws : List (WorkerPC α β)) (i : Nat) (w : WorkerPC α β), ws[i]? = some w →
      isArmed w = 0 → countWs isArmed ws + 1 ≤ ws.length
  | [], i, w, h, _ => by simp at h
  | x :: xs, 0, w, h, h0 => by
      simp at h; subst h
      have : ∀ ys : List (WorkerPC α β), countWs isArmed ys ≤ ys.length := by
        intro ys
        induction ys with
        | nil => simp [countWs]
        | cons y ys ih =>
            have hy : isArmed y ≤ 1 := by cases y <;> simp [isArmed]
            simp only [countWs, List.map_cons, List.sum_cons, List.length_cons] at ih ⊢
            omega
      have := this xs
      simp only [countWs, List.map_cons, List.sum_cons, List.length_cons, h0] at this ⊢
      omega
  | x :: xs, i + 1, w, h, h0 => by
      simp only [List.getElem?_cons_succ] at h
      have ih := armed_lt_length xs i w h h0
      have hx : isArmed x ≤ 1 := by cases x <;> simp [isArmed]
      simp only [countWs, List.map_cons, List.sum_cons, List.length_cons] at ih ⊢
      omega

theorem errSeen_step {c : Call α β} {s t : State α β}
    (hE : 0 < s.errorCount → s.result.isSome = true
      ∨ 0 < countWs isErrSend s.ws + s.out.countP (fun o => o.Error.isSome))
    (h : StepView c s t) :
    0 < t.errorCount → t.result.isSome = true
      ∨ 0 < countWs isErrSend t.ws + t.out.countP (fun o => o.Error.isSome) := by
  cases h with
  | entryWorkers hm hw => intro _; left; rfl
  | entryEmpty hm hw hn => intro _; left; rfl
  | entryGo hm hw hn => simpa [State.result, hm] using hE
  | spawnOne i hm hi =>
      simpa [State.result, hm, countWs_append, isErrSend] using hE
  | spawnEnd i hm hi => simpa [State.result, hm] using hE
  | feedOne index input hm hx hcap => simpa [State.result, hm] using hE
  | feedEnd index hm hx => simpa [State.result, hm] using hE
  | collectErr acc o rest e hm ho he => intro _; left; rfl
  | collectLast acc o rest hm ho he hlen => intro _; left; rfl
  | collectMore acc o rest hm ho he hlen =>
      simpa [State.result, hm, ho, he, List.countP_cons] using hE
  | ctxReturn acc hm hd => intro _; left; rfl
  | recvJob i job rest hw hj =>
      have e := countWs_set isErrSend s.ws i .recv (.sel job) hw 0 0 rfl rfl
      simp only [add_zero] at e
      simpa only [State.result, e] using hE
  | recvClosed i hw hj hc =>
      have e := countWs_set isErrSend s.ws i .recv .exited hw 0 0 rfl rfl
      simp only [add_zero] at e
      simpa only [State.result, e] using hE
  | selDone i job hw hd =>
      have e := countWs_set isErrSend s.ws i (.sel job) .exited hw 0 0 rfl rfl
      simp only [add_zero] at e
      simpa only [State.result, e] using hE
  | selGo i job hw hd =>
      have e := countWs_set isErrSend s.ws i (.sel job) (.gate job) hw 0 0 rfl rfl
      simp only [add_zero] at e
      simpa only [State.result, e] using hE
  | gateStop i job hw he =>
      have e := countWs_set isErrSend s.ws i (.gate job) .exited hw 0 0 rfl rfl
      simp only [add_zero] at e
      simpa only [State.result, e] using hE
  | gateGo i job hw he =>
      have e := countWs_set isErrSend s.ws i (.gate job) (.call job) hw 0 0 rfl rfl
      simp only [add_zero] at e
      simpa only [State.result, e] using hE
  | callFn i job hw =>
      have e := countWs_set isErrSend s.ws i (.call job)
        (.ran job (c.fn job.Index job.Value).1 (c.fn job.Index job.Value).2) hw 0 0 rfl rfl
      simp only [add_zero] at e
      simpa only [State.result, e] using hE
  | bump i job output err hw =>
      have e := countWs_set isErrSend s.ws i (.ran job output err)
        (.send { Index := job.Index, Value := output, Error := err }) hw 0
        (if err.isSome then 1 else 0) rfl rfl
      simp only [add_zero] at e
      intro hpos
      cases herr : err.isSome with
      | true =>
          right
          simp only [e, herr, if_true]
          omega
      | false =>
          simp only [herr, Bool.false_eq_true, if_false] at hpos e
          simpa only [State.result, e, add_zero] using hE hpos
  | sendOut i o hw hcap =>
      have e := countWs_set isErrSend s.ws i (.send o) .recv hw
        (if o.Error.isSome then 1 else 0) 0 rfl rfl
      simp only [add_zero] at e
      intro hpos
      rcases hE hpos with h1 | h1
      · left; exact h1
      · right
        simp only [List.countP_append, List.countP_cons, List.countP_nil]
        rw [← e] at h1
        omega
  | fire hc hd => simpa only [State.result] using hE

theorem armed_step {c : Call α β} {s t : State α β}
    (hA : 0 < s.errorCount → countWs isArmed s.ws + 1 ≤ s.ws.length)
    (h : StepView c s t) :
    0 < t.errorCount → countWs isArmed t.ws + 1 ≤ t.ws.length := by
  cases h with
  | spawnOne i hm hi =>
      intro hpos
      have := hA hpos
      simp only [countWs_append, isArmed, List.length_append, List.length_singleton]
      omega
  | recvJob i job rest hw hj =>
      have e := countWs_set isArmed s.ws i .recv (.sel job) hw 0 0 rfl rfl
      simp only [add_zero] at e
      simpa only [e, List.length_set] using hA
  | recvClosed i hw hj hc =>
      have e := countWs_set isArmed s.ws i .recv .exited hw 0 0 rfl rfl
      simp only [add_zero] at e
      simpa only [e, List.length_set] using hA
  | selDone i job hw hd =>
      have e := countWs_set isArmed s.ws i (.sel job) .exited hw 0 0 rfl rfl
      simp only [add_zero] at e
      simpa only [e, List.length_set] using hA
  | selGo i job hw hd =>
      have e := countWs_set isArmed s.ws i (.sel job) (.gate job) hw 0 0 rfl rfl
      simp only [add_zero] at e
      simpa only [e, List.length_set] using hA
  | gateStop i job hw he =>
      have e := countWs_set isArmed s.ws i (.gate job) .exited hw 0 0 rfl rfl
      simp only [add_zero] at e
      simpa only [e, List.length_set] using hA
  | gateGo i job hw he =>
      intro hpos
      simp only at hpos
      omega
  | callFn i job hw =>
      have e := countWs_set isArmed s.ws i (.call job)
        (.ran job (c.fn job.Index job.Value).1 (c.fn job.Index job.Value).2) hw 1 0 rfl rfl
      intro hpos
      have := hA hpos
      simp only [List.length_set]
      omega
  | bump i job output err hw =>
      have e := countWs_set isArmed s.ws i (.ran job output err)
        (.send { Index := job.Index, Value := output, Error := err }) hw 0 0 rfl rfl
      simp only [add_zero] at e
      intro _
      simp only [e, List.length_set]
      exact armed_lt_length s.ws i _ hw rfl
  | sendOut i o hw hcap =>
      have e := countWs_set isArmed s.ws i (.send o) .recv hw 0 0 rfl rfl
      simp only [add_zero] at e
      simpa only [e, List.length_set] using hA
  | _ => exact hA


/-! ### The invariant holds in every reachable state -/

/-- Cancellation, a counted error and a return are never undone. -/
theorem pre_step {c : Call α β} {s t : State α β} (h : StepView c s t)
    (hd : t.done = false) (he : t.errorCount = 0) (hr : t.result = none) :
    s.done = false ∧ s.errorCount = 0 ∧ s.result = none := by
  cases h with
  | bump i job output err hw =>
      refine ⟨hd, ?_, hr⟩
      simp only at he
      split at he <;> omega
  | fire hc hd0 => simp at hd
  | _ => simp_all [State.result]

/-- A worker returns only after cancellation, a counted error or the close of
`jobsChan`. -/
theorem exited_step {c : Call α β} {s t : State α β} (h : StepView c s t) :
    countWs isExited t.ws = countWs isExited s.ws
      ∨ t.done = true ∨ 0 < t.errorCount ∨ s.closed = true := by
  cases h with
  | spawnOne i hm hi => left; simp [countWs_append, isExited]
  | recvJob i job rest hw hj =>
      have e := countWs_set isExited s.ws i .recv (.sel job) hw 0 0 rfl rfl
      left; simpa using e
  | recvClosed i hw hj hc => right; right; right; exact hc
  | selDone i job hw hd => right; left; exact hd
  | selGo i job hw hd =>
      have e := countWs_set isExited s.ws i (.sel job) (.gate job) hw 0 0 rfl rfl
      left; simpa using e
  | gateStop i job hw he => right; right; left; exact he
  | gateGo i job hw he =>
      have e := countWs_set isExited s.ws i (.gate job) (.call job) hw 0 0 rfl rfl
      left; simpa using e
  | callFn i job hw =>
      have e := countWs_set isExited s.ws i (.call job)
        (.ran job (c.fn job.Index job.Value).1 (c.fn job.Index job.Value).2) hw 0 0 rfl rfl
      left; simpa using e
  | bump i job output err hw =>
      have e := countWs_set isExited s.ws i (.ran job output err)
        (.send { Index := job.Index, Value := output, Error := err }) hw 0 0 rfl rfl
      left; simpa using e
  | sendOut i o hw hcap =>
      have e := countWs_set isExited s.ws i (.send o) .recv hw 0 0 rfl rfl
      left; simpa using e
  | _ => left; rfl

theorem conserved_step {c : Call α β} {s t : State α β}
    (hC : s.done = false → s.errorCount = 0 → s.result = none →
      tokens c s = Multiset.range c.inputs.length ∧ countWs isExited s.ws = 0)
    (hcl : s.closed = true → s.result.isSome = true)
    (h : StepView c s t) :
    t.done = false → t.errorCount = 0 → t.result = none →
      tokens c t = Multiset.range c.inputs.length ∧ countWs isExited t.ws = 0 := by
  intro hd he hr
  obtain ⟨sd, se, sr⟩ := pre_step h hd he hr
  obtain ⟨htok, hex⟩ := hC sd se sr
  constructor
  · obtain ⟨d, hsum, hcase⟩ := tokens_step h
    rcases hcase with h0 | h0 | h0 | h0
    · subst h0; rw [← htok, ← hsum, add_zero]
    · rw [hr] at h0; simp at h0
    · rw [hd] at h0; simp at h0
    · omega
  · rcases exited_step h with h0 | h0 | h0 | h0
    · rw [h0, hex]
    · rw [hd] at h0; simp at h0
    · omega
    · have := hcl h0; rw [sr] at this; simp at this

theorem post_done_mono {c : Call α β} {res : List β} {err : Option GoError}
    (h : Post c false res err) : Post c true res err := by
  unfold Post at h ⊢
  split
  · rename_i h1
    simpa only [h1, if_true] using h
  · split
    · rename_i h1 h2
      simpa only [h1, h2, if_true, if_false] using h
    · rename_i h1 h2
      simp only [h1, h2, if_false] at h
      rcases h with h | h | h
      · simp at h
      · right; left; exact h
      · right; right; exact h

theorem ret_step {c : Call α β} {s t : State α β}
    (hR : ∀ res err, s.main = .returned res err → Post c s.done res err)
    (hP : Phase c s) (hG : Goods c s)
    (hT : tokens c s ≤ Multiset.range c.inputs.length)
    (h : StepView c s t) :
    ∀ res err, t.main = .returned res err → Post c t.done res err := by
  cases h with
  | entryWorkers hm hw =>
      intro res err hret
      simp only [MainPC.returned.injEq] at hret
      simp [Post, hw, ← hret.1, ← hret.2]
  | entryEmpty hm hw hn =>
      intro res err hret
      simp only [MainPC.returned.injEq] at hret
      simp [Post, hw, hn, ← hret.1, ← hret.2]
  | collectErr acc o rest e hm ho he =>
      intro res err hret
      simp only [MainPC.returned.injEq] at hret
      simp only [Phase, hm] at hP
      obtain ⟨⟨x, hx, hf⟩, _⟩ := hG.outGood o (by simp [ho])
      have hn : ¬ c.inputs.length = 0 := by omega
      simp only [Post, hP.2.1, hn, if_false]
      right; left
      refine ⟨hret.1.symm, o.Index, x, e, hx, ?_, hret.2.symm⟩
      rw [hf, he]
  | collectLast acc o rest hm ho he hlen =>
      intro res err hret
      simp only [MainPC.returned.injEq] at hret
      simp only [Phase, hm] at hP
      have hn : ¬ c.inputs.length = 0 := by omega
      simp only [Post, hP.2.1, hn, if_false]
      right; right
      have hgood : ∀ x ∈ acc ++ [o], GoodOut c x ∧ x.Error = none := by
        intro x hx
        rcases List.mem_append.1 hx with h1 | h1
        · exact hG.accGood acc hm x h1
        · simp at h1; subst h1
          exact ⟨(hG.outGood x (by simp [ho])).1, he⟩
      have hle : (((acc ++ [o]).map (fun o => o.Index) : List Nat) : Multiset Nat)
          ≤ Multiset.range c.inputs.length := by
        refine le_trans ?_ hT
        simp only [tokens, mainTokens, hm, ho, List.map_append, List.map_cons, List.map_nil,
          ← Multiset.coe_add, ← Multiset.cons_coe, ← Multiset.singleton_add, Multiset.coe_nil,
          add_zero]
        have : ∀ a b x y z : Multiset Nat, a + b ≤ a + x + y + (b + z) := by
          intro a b x y z
          have e : a + x + y + (b + z) = (a + b) + (x + y + z) := by abel
          rw [e]; exact Multiset.le_add_right _ _
        exact this _ _ _ _ _
      have heq := Multiset.eq_of_le_of_card_le hle (by
        simp only [Multiset.card_range, Multiset.coe_card, List.length_map]
        exact hlen)
      obtain ⟨h1, h2⟩ := sorted_values (acc ++ [o]) hgood heq
      exact ⟨hret.2.symm, by rw [← hret.1, h1], h2⟩
  | ctxReturn acc hm hd =>
      intro res err hret
      simp only [MainPC.returned.injEq] at hret
      simp only [Phase, hm] at hP
      have hn : ¬ c.inputs.length = 0 := by omega
      simp only [Post, hP.2.1, hn, if_false]
      left
      exact ⟨hret.1.symm, hret.2.symm, hd⟩
  | fire hc hd =>
      intro res err hret
      have := hR res err hret
      rw [hd] at this
      exact post_done_mono this
  | entryGo hm hw hn => intro res err hret; simp at hret
  | spawnOne i hm hi => intro res err hret; simp at hret
  | spawnEnd i hm hi => intro res err hret; simp at hret
  | feedOne index input hm hx hcap => intro res err hret; simp at hret
  | feedEnd index hm hx => intro res err hret; simp at hret
  | collectMore acc o rest hm ho he hlen => intro res err hret; simp at hret
  | _ => exact hR

theorem inv_init (c : Call α β) : Inv c (init c) where
  tok := by
    simp only [tokens, init, mainTokens, heldSum, List.map_nil, List.sum_nil, Multiset.coe_nil,
      add_zero]
    exact le_of_eq rfl
  phase := by simp [Phase, init]
  wsLen := by simp [init]
  closedRet := by simp [init]
  doneCtx := fun h => Or.inl h
  goods := ⟨by simp [init], by simp [init], by simp [init], by simp [init]⟩
  errSeen := by simp [init]
  conserved := by
    intro _ _ _
    simp only [tokens, init, mainTokens, heldSum, countWs, List.map_nil, List.sum_nil,
      Multiset.coe_nil, add_zero]
    exact ⟨rfl, trivial⟩
  armed := by simp [init]
  ret := by simp [init]

theorem inv_step {c : Call α β} {s t : State α β} (hI : Inv c s) (h : StepView c s t) :
    Inv c t where
  tok := le_trans (tokens_step_le h) hI.tok
  phase := phase_step hI.phase h
  wsLen := wsLen_step hI.phase hI.wsLen h
  closedRet := closedRet_step hI.closedRet h
  doneCtx := doneCtx_step hI.doneCtx h
  goods := goods_step hI.goods h
  errSeen := errSeen_step hI.errSeen h
  conserved := conserved_step hI.conserved hI.closedRet h
  armed := armed_step hI.armed h
  ret := ret_step hI.ret hI.phase hI.goods hI.tok h

theorem inv_exec {c : Call α β} :
    ∀ (sched : List Actor) (s t : State α β), Inv c s → exec c sched s = some t → Inv c t
  | [], s, t, hI, h => by simp [exec] at h; subst h; exact hI
  | a :: rest, s, t, hI, h => by
      simp only [exec] at h
      split at h
      · rename_i u hu
        exact inv_exec rest u t (inv_step hI (step_view hu)) h
      · cases h

/-- The invariant holds in every reachable state. -/
theorem reachable_inv {c : Call α β} {s : State α β} (h : Reachable c s) : Inv c s := by
  obtain ⟨sched, hs⟩ := h
  exact inv_exec sched _ _ (inv_init c) hs


/-! ### No deadlock -/

theorem exists_of_countWs_pos (f : WorkerPC α β → Nat) :
    ∀ ws : List (WorkerPC α β), 0 < countWs f ws → ∃ (i : Nat) (w : WorkerPC α β), ws[i]? = some w ∧ 0 < f w
  | [], h => by simp [countWs] at h
  | x :: xs, h => by
      by_cases hx : 0 < f x
      · exact ⟨0, x, by simp, hx⟩
      · have : 0 < countWs f xs := by
          simp only [countWs, List.map_cons, List.sum_cons] at h ⊢
          omega
        obtain ⟨i, w, hw, hf⟩ := exists_of_countWs_pos f xs this
        exact ⟨i + 1, w, by simpa using hw, hf⟩

theorem le_countWs (f : WorkerPC α β → Nat) :
    ∀ (ws : List (WorkerPC α β)) (i : Nat) (w : WorkerPC α β), ws[i]? = some w →
      f w ≤ countWs f ws
  | [], i, w, h => by simp at h
  | x :: xs, 0, w, h => by
      simp at h; subst h
      simp [countWs]
  | x :: xs, i + 1, w, h => by
      simp only [List.getElem?_cons_succ] at h
      have := le_countWs f xs i w h
      simp only [countWs, List.map_cons, List.sum_cons] at this ⊢
      omega

theorem card_heldSum (ws : List (WorkerPC α β)) :
    Multiset.card (heldSum ws) = countWs (fun w => (held w).length) ws := by
  induction ws with
  | nil => simp [heldSum, countWs]
  | cons x xs ih =>
      simp only [heldSum, countWs, List.map_cons, List.sum_cons, Multiset.card_add,
        Multiset.coe_card] at ih ⊢
      rw [ih]

theorem card_tokens (c : Call α β) (s : State α β) :
    Multiset.card (tokens c s) = (mainTokens c s.main).length + s.jobs.length
      + countWs (fun w => (held w).length) s.ws + s.out.length := by
  simp [tokens, card_heldSum]

/-- A worker with a job or an output in hand can move (the output buffer
having room). -/
theorem holder_moves (c : Call α β) (s : State α β) (i : Nat) (w : WorkerPC α β)
    (hw : s.ws[i]? = some w) (hh : 0 < (held w).length)
    (hcap : s.out.length < c.inputs.length) : step c (.worker i) s ≠ none := by
  cases w with
  | recv => simp [held] at hh
  | exited => simp [held] at hh
  | sel job => simp only [step, workerStep, hw]; split <;> simp
  | gate job => simp only [step, workerStep, hw]; split <;> simp
  | call job => simp [step, workerStep, hw]
  | ran job output err => simp [step, workerStep, hw]
  | send o => simp [step, workerStep, hw, hcap]

/-- No deadlock: while the call has not returned, some goroutine can move. -/
theorem quiescent_returned {c : Call α β} {s : State α β} (hr : Reachable c s)
    (hq : Quiescent c s) : s.result.isSome = true := by
  have hI := reachable_inv hr
  have hmain := hq .main (by decide)
  have hctx := hq .mainCtx (by decide)
  cases hm : s.main with
  | entry =>
      simp only [step, mainStep, hm] at hmain
      split at hmain
      · cases hmain
      · split at hmain <;> cases hmain
  | spawn i =>
      simp only [step, mainStep, hm] at hmain
      split at hmain <;> cases hmain
  | feed k =>
      simp only [step, mainStep, hm] at hmain
      split at hmain
      · rename_i x hx
        have hk := lt_length_of_getElem? hx
        have hcard := Multiset.card_le_card hI.tok
        rw [card_tokens, hm] at hcard
        simp only [mainTokens, List.length_range', Multiset.card_range] at hcard
        split at hmain
        · cases hmain
        · omega
      · cases hmain
  | returned res err => simp [State.result, hm]
  | collect acc =>
      exfalso
      have hP := hI.phase
      simp only [Phase, hm] at hP
      have hdone : s.done = false := by
        cases hd : s.done with
        | false => rfl
        | true => simp [step, mainCtxStep, hm, hd] at hctx
      have hout : s.out = [] := by
        cases ho : s.out with
        | nil => rfl
        | cons o rest =>
            simp only [step, mainStep, hm, ho] at hmain
            split at hmain
            · cases hmain
            · split at hmain <;> cases hmain
      have hres : s.result = none := by simp [State.result, hm]
      have hcap : s.out.length < c.inputs.length := by rw [hout]; simp; omega
      by_cases he : 0 < s.errorCount
      · rcases hI.errSeen he with h1 | h1
        · rw [hres] at h1; simp at h1
        · rw [hout] at h1
          simp only [List.countP_nil, add_zero] at h1
          obtain ⟨i, w, hw, hf⟩ := exists_of_countWs_pos _ _ h1
          cases w with
          | send o =>
              exact holder_moves c s i _ hw (by simp [held]) hcap (hq (.worker i) (by simp))
          | _ => simp [isErrSend] at hf
      · obtain ⟨htok, hex⟩ := hI.conserved hdone (by omega) hres
        have hcard := congrArg Multiset.card htok
        rw [card_tokens, hm, hout] at hcard
        simp only [mainTokens, List.length_map, Multiset.card_range, List.length_nil,
          add_zero] at hcard
        by_cases hh : 0 < countWs (fun w => (held w).length) s.ws
        · obtain ⟨i, w, hw, hf⟩ := exists_of_countWs_pos _ _ hh
          exact holder_moves c s i w hw hf hcap (hq (.worker i) (by simp))
        · have hjobs : 0 < s.jobs.length := by omega
          have hws : 0 < s.ws.length := by omega
          have hw0 : s.ws[0]? = some (s.ws[0]) := List.getElem?_eq_getElem hws
          have hstep := hq (.worker 0) (by simp)
          have hmem : s.ws[0] ∈ s.ws := List.getElem_mem hws
          cases hw : s.ws[0] with
          | recv =>
              rw [hw] at hw0
              cases hj : s.jobs with
              | nil => rw [hj] at hjobs; simp at hjobs
              | cons j rest => simp [step, workerStep, hw0, hj] at hstep
          | exited =>
              rw [hw] at hw0
              have h1 : 1 ≤ countWs isExited s.ws := le_countWs isExited s.ws 0 _ hw0
              omega
          | _ =>
              rw [hw] at hw0
              have h1 : 1 ≤ countWs (fun w => (held w).length) s.ws :=
                le_countWs (fun w => (held w).length) s.ws 0 _ hw0
              omega


/-! ### The call always returns -/

theorem exec_append {c : Call α β} :
    ∀ (p q : List Actor) (s t u : State α β), exec c p s = some t → exec c q t = some u →
      exec c (p ++ q) s = some u
  | [], q, s, t, u, h1, h2 => by simp [exec] at h1; subst h1; simpa using h2
  | a :: p, q, s, t, u, h1, h2 => by
      simp only [exec, List.cons_append] at h1 ⊢
      split at h1
      · rename_i v hv
        exact exec_append p q v t u h1 h2
      · cases h1

theorem reachable_exec {c : Call α β} {s t : State α β} (h : Reachable c s)
    (sched : List Actor) (ht : parmap.exec c sched s = some t) : Reachable c t := by
  obtain ⟨p, hp⟩ := h
  exact ⟨p ++ sched, exec_append p sched _ s t hp ht⟩

/-- From every state the goroutines can run (without the context firing)
until none of them can move. -/
theorem exists_run_to_quiescent (c : Call α β) :
    ∀ (n : Nat) (s : State α β), potential c s ≤ n →
      ∃ sched t, exec c sched s = some t ∧ Quiescent c t := by
  intro n
  induction n with
  | zero =>
      intro s hs
      refine ⟨[], s, rfl, ?_⟩
      intro a _
      cases h : step c a s with
      | none => rfl
      | some t =>
          have := potential_step (step_view h)
          omega
  | succ n ih =>
      intro s hs
      by_cases hq : Quiescent c s
      · exact ⟨[], s, rfl, hq⟩
      · unfold Quiescent at hq
        push_neg at hq
        obtain ⟨a, _, ha⟩ := hq
        cases h : step c a s with
        | none => exact absurd h ha
        | some t =>
            have hlt := potential_step (step_view h)
            obtain ⟨sched, u, hu, hqu⟩ := ih t (by omega)
            refine ⟨a :: sched, u, ?_, hqu⟩
            simp only [exec, h]
            exact hu

/-- A property of all returned states is what the call always returns. -/
theorem alwaysReturns_of_safe (c : Call α β) (P : State α β → Prop)
    (h : ∀ s, Reachable c s → s.result.isSome = true → P s) : AlwaysReturns c P := by
  refine ⟨⟨potential c (init c), ?_⟩, fun s hr hq => quiescent_returned hr hq, h, ?_⟩
  · intro sched s hs
    have := exec_potential sched _ _ hs
    omega
  · obtain ⟨sched, t, ht, hq⟩ := exists_run_to_quiescent c _ (init c) (le_refl _)
    exact ⟨t, ⟨sched, ht⟩, quiescent_returned ⟨sched, ht⟩ hq⟩

/-- The runs in which the context does not fire are the runs of the same call
with a context that cannot fire. -/
theorem exec_quiet (c : Call α β) :
    ∀ (sched : List Actor) (s : State α β), Actor.cancel ∉ sched →
      exec (quiet c) sched s = exec c sched s
  | [], s, _ => rfl
  | a :: rest, s, h => by
      have ha : a ≠ Actor.cancel := fun e => h (by simp [e])
      have hrest : Actor.cancel ∉ rest := fun e => h (by simp [e])
      have hstep : step (quiet c) a s = step c a s := by
        cases a with
        | cancel => exact absurd rfl ha
        | main => rfl
        | mainCtx => rfl
        | worker i => rfl
      simp only [exec, hstep]
      cases step c a s with
      | none => rfl
      | some t => exact exec_quiet c rest t hrest

/-- What `InterfacesToInterfaces` returns is described by `Post`. -/
theorem result_post {c : Call α β} {s : State α β} (hr : Reachable c s)
    {res : List β} {err : Option GoError} (h : s.result = some (res, err)) :
    Post c s.done res err := by
  have hI := reachable_inv hr
  unfold State.result at h
  split at h
  · rename_i o e hm
    cases h
    exact hI.ret _ _ hm
  · cases h


/-! ### The two early returns; error messages -/

/-- A property kept by every action holds along every run. -/
theorem exec_induct {c : Call α β} (P : State α β → Prop)
    (hstep : ∀ s t, P s → StepView c s t → P t) :
    ∀ (sched : List Actor) (s t : State α β), P s → exec c sched s = some t → P t
  | [], s, t, hP, h => by simp [exec] at h; subst h; exact hP
  | a :: rest, s, t, hP, h => by
      simp only [exec] at h
      split at h
      · rename_i u hu
        exact exec_induct P hstep rest u t (hstep s u hP (step_view hu)) h
      · cases h

/-- With fewer than one worker or no input, no worker is ever started and `fn`
is never invoked. -/
theorem early_inv {c : Call α β} (h : c.workers < 1 ∨ c.inputs.length = 0)
    {s : State α β} (hr : Reachable c s) :
    (s.main = .entry ∨ s.result.isSome = true) ∧ s.ws = [] ∧ s.calls = [] := by
  obtain ⟨sched, hs⟩ := hr
  refine exec_induct (fun s => (s.main = .entry ∨ s.result.isSome = true) ∧ s.ws = []
    ∧ s.calls = []) ?_ sched _ _ ⟨Or.inl rfl, rfl, rfl⟩ hs
  intro s t ⟨hm, hws, hcalls⟩ hst
  cases hst with
  | entryWorkers hm0 hw => exact ⟨Or.inr rfl, hws, hcalls⟩
  | entryEmpty hm0 hw hn => exact ⟨Or.inr rfl, hws, hcalls⟩
  | entryGo hm0 hw hn => rcases h with h | h <;> contradiction
  | fire hc hd => exact ⟨hm, hws, hcalls⟩
  | spawnOne i hm0 hi => simp [hm0, State.result] at hm
  | spawnEnd i hm0 hi => simp [hm0, State.result] at hm
  | feedOne index input hm0 hx hcap => simp [hm0, State.result] at hm
  | feedEnd index hm0 hx => simp [hm0, State.result] at hm
  | collectErr acc o rest e hm0 ho he => simp [hm0, State.result] at hm
  | collectLast acc o rest hm0 ho he hlen => simp [hm0, State.result] at hm
  | collectMore acc o rest hm0 ho he hlen => simp [hm0, State.result] at hm
  | ctxReturn acc hm0 hd => simp [hm0, State.result] at hm
  | recvJob i job rest hw hj => simp [hws] at hw
  | recvClosed i hw hj hc => simp [hws] at hw
  | selDone i job hw hd => simp [hws] at hw
  | selGo i job hw hd => simp [hws] at hw
  | gateStop i job hw he => simp [hws] at hw
  | gateGo i job hw he => simp [hws] at hw
  | callFn i job hw => simp [hws] at hw
  | bump i job output err hw => simp [hws] at hw
  | sendOut i o hw hcap => simp [hws] at hw

theorem mentions_append (pre needle post : String) :
    mentions (pre ++ (needle ++ post)) needle := by
  unfold mentions
  exact ⟨pre.data, post.data, by simp [String.data_append]⟩

theorem mentions_wrapf (pre : String) (e : GoError) (needle : String)
    (h : mentions e.Error needle) : mentions (GoError.wrapf pre e).Error needle := by
  unfold mentions at h ⊢
  obtain ⟨a, b, hab⟩ := h
  exact ⟨pre.data ++ a, b, by simp [GoError.Error, String.data_append, ← hab]⟩

theorem workers_message (w : Int) :
    mentions (GoError.errorf ("must have at least one worker, specified " ++ fmtD w)).Error
      "worker" := by
  have : "must have at least one worker, specified " ++ fmtD w
      = "must have at least one " ++ ("worker" ++ (", specified " ++ fmtD w)) := by
    rw [← String.append_assoc, ← String.append_assoc]
    rfl
  simp only [GoError.Error, this]
  exact mentions_append _ _ _


/-! ### Fewer than one worker -/

/-- The value of `IntsToStrings` on a non-nil slice, in terms of the inner call. -/
theorem IntsToStrings_some (ctx : Context) (xs : List Int) (workers : Int)
    (fn : Nat → Int → String × Option GoError) (sched : List Actor) :
    IntsToStrings ctx (some xs) workers fn sched
      = (exec (innerCall ctx (xs.map Iface.int) workers fn) sched
          (init (innerCall ctx (xs.map Iface.int) workers fn))).bind
          (fun s => s.result.map (fun r => finish r.1 r.2)) := by
  simp only [IntsToStrings, InterfacesToInterfaces, Inputs, intsArg, slice.ToInterfaceSlice]
  cases exec (innerCall ctx (xs.map Iface.int) workers fn) sched
      (init (innerCall ctx (xs.map Iface.int) workers fn)) with
  | none => rfl
  | some s =>
      simp only [Option.bind]
      cases s.result with
      | none => rfl
      | some r => rfl

theorem fnCalls_some (ctx : Context) (xs : List Int) (workers : Int)
    (fn : Nat → Int → String × Option GoError) (sched : List Actor) (s : State Iface Iface)
    (h : exec (innerCall ctx (xs.map Iface.int) workers fn) sched
          (init (innerCall ctx (xs.map Iface.int) workers fn)) = some s)
    (hc : s.calls = []) :
    fnCalls ctx (some xs) workers fn sched = [] := by
  simp [fnCalls, Inputs, intsArg, slice.ToInterfaceSlice, h, hc]

theorem fnCalls_none (ctx : Context) (xs : List Int) (workers : Int)
    (fn : Nat → Int → String × Option GoError) (sched : List Actor) 
    (h : exec (innerCall ctx (xs.map Iface.int) workers fn) sched
          (init (innerCall ctx (xs.map Iface.int) workers fn)) = none) :
    fnCalls ctx (some xs) workers fn sched = [] := by
  simp [fnCalls, Inputs, intsArg, slice.ToInterfaceSlice, h]

/-- C2 (as stated, refuted): with a nil slice and 0 workers `IntsToStrings`
fails in `Inputs`, and its message does not mention "worker". -/
theorem IntsToStrings_nil_counterexample :
    IntsToStrings Background none 0 itoaFn []
        = some ([], some (.wrapf "making inputs: " (.errorf "nil slice given")))
      ∧ ¬ mentions (GoError.wrapf "making inputs: " (.errorf "nil slice given")).Error "worker" := by
  decide

/-- C2 (amended): with `workers < 1`, `InterfacesToInterfaces` on every input
sequence, and `IntsToStrings` on every non-nil slice, return an empty result
and an error whose message mentions "worker", under every interleaving; no
worker is started and `fn` is never invoked.  On a nil slice `IntsToStrings`
returns the error of `Inputs` instead, again without invoking `fn`. -/
theorem workers_below_one (ctx : Context) (workers : Int) (hw : workers < 1) :
    (∀ (inputs : List α) (fn : Nat → α → β × Option GoError),
        AlwaysReturns { ctx := ctx, inputs := inputs, workers := workers, fn := fn }
          (fun s => ∃ e, s.result = some ([], some e) ∧ mentions e.Error "worker")
        ∧ ∀ s, Reachable { ctx := ctx, inputs := inputs, workers := workers, fn := fn } s →
            s.ws = [] ∧ s.calls = [])
    ∧ (∀ (items : List Int) (fn : Nat → Int → String × Option GoError),
        (∃ sched, (IntsToStrings ctx (some items) workers fn sched).isSome = true)
        ∧ (∀ sched r, IntsToStrings ctx (some items) workers fn sched = some r →
            r.1 = [] ∧ ∃ e, r.2 = some e ∧ mentions e.Error "worker")
        ∧ ∀ sched, fnCalls ctx (some items) workers fn sched = [])
    ∧ (∀ (fn : Nat → Int → String × Option GoError) sched,
        IntsToStrings ctx none workers fn sched
          = some ([], some (.wrapf "making inputs: " (.errorf "nil slice given")))
        ∧ fnCalls ctx none workers fn sched = []) := by
  have key : ∀ {γ δ : Type} (c : Call γ δ), c.workers = workers → ∀ s, Reachable c s →
      s.result.isSome = true → ∃ e, s.result = some ([], some e) ∧ mentions e.Error "worker" := by
    intro γ δ c hc s hr hsome
    cases hres : s.result with
    | none => rw [hres] at hsome; simp at hsome
    | some r =>
        obtain ⟨res, err⟩ := r
        have hp := result_post hr hres
        have hlt : c.workers < 1 := hc ▸ hw
        simp only [Post, hlt, if_true] at hp
        refine ⟨_, by rw [hp.1, hp.2], workers_message _⟩
  refine ⟨?_, ?_, fun _ _ => ⟨rfl, rfl⟩⟩
  · intro inputs fn
    refine ⟨alwaysReturns_of_safe _ _ (key _ rfl), ?_⟩
    intro s hr
    exact (early_inv (Or.inl hw) hr).2
  · intro items fn
    have hA := alwaysReturns_of_safe (innerCall ctx (items.map Iface.int) workers fn) _
      (key _ rfl)
    refine ⟨?_, ?_, ?_⟩
    · obtain ⟨s, ⟨sched, hs⟩, hsome⟩ := hA.2.2.2
      refine ⟨sched, ?_⟩
      rw [IntsToStrings_some, hs]
      simpa [Option.bind] using hsome
    · intro sched r hr
      rw [IntsToStrings_some] at hr
      cases hs : exec (innerCall ctx (items.map Iface.int) workers fn) sched
          (init (innerCall ctx (items.map Iface.int) workers fn)) with
      | none => rw [hs] at hr; simp at hr
      | some s =>
          rw [hs] at hr
          simp only [Option.bind, Option.map_eq_some'] at hr
          obtain ⟨r0, hr0, hfin⟩ := hr
          obtain ⟨e, he, hment⟩ := key _ rfl s ⟨sched, hs⟩ (by rw [hr0]; rfl)
          rw [hr0] at he
          cases he
          subst hfin
          exact ⟨rfl, _, rfl, mentions_wrapf _ _ _ hment⟩
    · intro sched
      cases hs : exec (innerCall ctx (items.map Iface.int) workers fn) sched
          (init (innerCall ctx (items.map Iface.int) workers fn)) with
      | none => exact fnCalls_none ctx items workers fn sched hs
      | some s =>
          exact fnCalls_some ctx items workers fn sched s hs
            (early_inv (Or.inl hw) ⟨sched, hs⟩).2.2

/-- C2, an instance: with 0 workers, `IntsToStrings` over `[0, 1, 2, 3]` never
invokes `fn`, and once the inner call has taken its single step it has
returned the error about workers. -/
theorem workers_below_one_witness :
    (∀ sched, fnCalls Background (some [0, 1, 2, 3]) 0 itoaFn sched = [])
      ∧ IntsToStrings Background (some [0, 1, 2, 3]) 0 itoaFn [Actor.main]
        = some ([], some (.wrapf "parmap.parmapIntsToStrings: "
            (.errorf "must have at least one worker, specified 0"))) :=
  ⟨((@workers_below_one Int String Background 0 (by decide)).2.1 [0, 1, 2, 3]
      itoaFn).2.2, by decide⟩


/-! ### Empty input; length of the result -/

/-- C3 (as stated, refuted): with an empty input and 0 workers the call does
not succeed; it returns the error about workers. -/
theorem empty_input_counterexample :
    InterfacesToInterfaces (testCall 0 [] itoaFn) [Actor.main]
      = some ([], some (.errorf "must have at least one worker, specified 0")) := by
  decide

/-- C3 (amended): for every worker count `w ≥ 1` and every `fn`,
`InterfacesToInterfaces` on an empty input sequence returns success with an
empty result under every interleaving, starts no worker and never invokes
`fn`. -/
theorem empty_input (c : Call α β) (hw : 1 ≤ c.workers) (hn : c.inputs = []) :
    AlwaysReturns c (fun s => s.result = some ([], none))
      ∧ ∀ s, Reachable c s → s.ws = [] ∧ s.calls = [] := by
  have hlen : c.inputs.length = 0 := by rw [hn]; rfl
  refine ⟨alwaysReturns_of_safe _ _ ?_, fun s hr => (early_inv (Or.inr hlen) hr).2⟩
  intro s hr hsome
  cases hres : s.result with
  | none => rw [hres] at hsome; simp at hsome
  | some r =>
      obtain ⟨res, err⟩ := r
      have hp := result_post hr hres
      have hlt : ¬ c.workers < 1 := by omega
      simp only [Post, hlt, hlen, if_true, if_false] at hp
      rw [hp.1, hp.2]

/-- C3, an instance: 2 workers over the empty input always return `([], nil)`,
and no worker or `fn` call is ever seen. -/
theorem empty_input_witness :
    AlwaysReturns (testCall 2 [] itoaFn) (fun s => s.result = some ([], none))
      ∧ ∀ s, Reachable (testCall 2 [] itoaFn) s → s.ws = [] ∧ s.calls = [] :=
  empty_input (testCall 2 [] itoaFn) (by decide) rfl

theorem length_expected (c : Call α β) : (expected c).length = c.inputs.length := by
  simp [expected]

/-- C4 (as stated, refuted): with an empty input and 0 workers the returned
sequence has the length of the input (both 0) and yet the call fails. -/
theorem length_iff_counterexample :
    ∃ res err, InterfacesToInterfaces (testCall 0 [] itoaFn) [Actor.main] = some (res, err)
      ∧ res.length = (testCall 0 [] itoaFn).inputs.length ∧ err ≠ none :=
  ⟨[], some (.errorf "must have at least one worker, specified 0"), rfl, rfl, by decide⟩

/-- C4 (amended): whenever `InterfacesToInterfaces` has returned, success
implies that the result has the length of the input; and if the input is
non-empty or `workers ≥ 1`, the result has the length of the input if and only
if the call succeeded. -/
theorem length_iff_success (c : Call α β) (s : State α β) (res : List β)
    (err : Option GoError) (hr : Reachable c s) (h : s.result = some (res, err)) :
    (err = none → res.length = c.inputs.length)
      ∧ (c.inputs ≠ [] ∨ 1 ≤ c.workers → (res.length = c.inputs.length ↔ err = none)) := by
  have hp := result_post hr h
  unfold Post at hp
  split at hp
  · rename_i hw
    obtain ⟨h1, h2⟩ := hp
    subst h1 h2
    refine ⟨by simp, ?_⟩
    intro hor
    rcases hor with hne | hge
    · have : c.inputs.length ≠ 0 := by
        intro h0; exact hne (List.length_eq_zero.1 h0)
      simp only [List.length_nil, reduceCtorEq, iff_false]
      omega
    · omega
  · split at hp
    · rename_i hw hn
      obtain ⟨h1, h2⟩ := hp
      subst h1 h2
      simp [hn]
    · rename_i hw hn
      rcases hp with ⟨h1, h2, _⟩ | ⟨h1, i, x, e, _, _, h2⟩ | ⟨h1, h2, _⟩
      · subst h1 h2
        simp only [List.length_nil, reduceCtorEq, iff_false, false_implies, true_and]
        intro _; omega
      · subst h1 h2
        simp only [List.length_nil, reduceCtorEq, iff_false, false_implies, true_and]
        intro _; omega
      · subst h1 h2
        simp [length_expected]

/-- C4, an instance: one worker over `[7]`, run to the end, returns one value
and no error. -/
theorem length_iff_success_witness :
    (["7"] : List String).length = ([7] : List Int).length ↔ (none : Option GoError) = none :=
  (length_iff_success (testCall 1 [7] itoaFn) _ ["7"] none
    ⟨mainTurns 5 ++ turns 0 6 ++ mainTurns 1, rfl⟩ rfl).2 (Or.inl (by decide))


/-! ### An error received by the collector -/

/-- C5: whenever the collector (at its `select`) receives an output that
carries an error for job `i`, that error is the one `fn` returned for input
`i`, and the receiving action itself returns: the result is empty whatever was
collected before, and the error wraps the original one, its message being
"index i: " followed by the original message. -/
theorem error_surfaces (c : Call α β) (s : State α β) (acc : List (indexedInterface β))
    (o : indexedInterface β) (rest : List (indexedInterface β)) (e : GoError)
    (hr : Reachable c s) (hm : s.main = .collect acc) (ho : s.out = o :: rest)
    (he : o.Error = some e) :
    (∃ x, c.inputs[o.Index]? = some x ∧ (c.fn o.Index x).2 = some e)
      ∧ (∃ t, step c Actor.main s = some t
          ∧ t.result = some ([], some (.wrapf ("index " ++ fmtD o.Index ++ ": ") e)))
      ∧ (GoError.wrapf ("index " ++ fmtD o.Index ++ ": ") e).Error
          = "index " ++ fmtD o.Index ++ ": " ++ e.Error
      ∧ (GoError.wrapf ("index " ++ fmtD o.Index ++ ": ") e).Unwrap = some e := by
  have hI := reachable_inv hr
  obtain ⟨⟨x, hx, hf⟩, _⟩ := hI.goods.outGood o (by simp [ho])
  refine ⟨⟨x, hx, by rw [hf, he]⟩, ?_, rfl, rfl⟩
  have hstep : step c Actor.main s = some { s with
      main := (MainPC.returned [] (some (.wrapf ("index " ++ fmtD o.Index ++ ": ") e))),
      out := rest, closed := true } := by
    simp only [step, mainStep, hm, ho, he]
  exact ⟨_, hstep, rfl⟩

/-- C5, an instance: in `TestParMap_error_reports_no_races` cut down to the
item 3, the collector returns `"index 0: not a fan of 3"`. -/
theorem error_surfaces_witness :
    ∃ t, step (testCall 1 [3] notAFanOf3) Actor.main errorAtCollector = some t
      ∧ t.result = some ([], some (.wrapf ("index " ++ fmtD (0 : Nat) ++ ": ")
          (.errorf "not a fan of 3"))) :=
  (error_surfaces (testCall 1 [3] notAFanOf3) errorAtCollector []
    { Index := 0, Value := "", Error := some (.errorf "not a fan of 3") } []
    (.errorf "not a fan of 3") ⟨mainTurns 5 ++ turns 0 6, by decide⟩ rfl rfl rfl).2.1


/-! ### An error is never missed -/

/-- When the collector takes the output that completes its list, it holds one
error-free output for every index `0 .. N-1`. -/
theorem collected_all {c : Call α β} {s : State α β} (hI : Inv c s)
    {acc : List (indexedInterface β)} {o : indexedInterface β}
    {rest : List (indexedInterface β)} (hm : s.main = .collect acc) (ho : s.out = o :: rest)
    (he : o.Error = none) (hlen : (acc ++ [o]).length ≥ c.inputs.length) :
    ((acc ++ [o]).map (fun r => r.Index)).Perm (List.range c.inputs.length)
      ∧ ∀ r ∈ acc ++ [o], GoodOut c r ∧ r.Error = none := by
  constructor
  · have hle : (((acc ++ [o]).map (fun o => o.Index) : List Nat) : Multiset Nat)
        ≤ Multiset.range c.inputs.length := by
      refine le_trans ?_ hI.tok
      simp only [tokens, mainTokens, hm, ho, List.map_append, List.map_cons, List.map_nil,
        ← Multiset.coe_add, ← Multiset.cons_coe, ← Multiset.singleton_add, Multiset.coe_nil,
        add_zero]
      have : ∀ a b x y z : Multiset Nat, a + b ≤ a + x + y + (b + z) := by
        intro a b x y z
        have e : a + x + y + (b + z) = (a + b) + (x + y + z) := by abel
        rw [e]; exact Multiset.le_add_right _ _
      exact this _ _ _ _ _
    have heq := Multiset.eq_of_le_of_card_le hle (by
      simp only [Multiset.card_range, Multiset.coe_card, List.length_map]
      exact hlen)
    rw [← Multiset.coe_eq_coe]
    exact heq
  · intro x hx
    rcases List.mem_append.1 hx with h1 | h1
    · exact hI.goods.accGood acc hm x h1
    · simp at h1; subst h1
      exact ⟨(hI.goods.outGood x (by simp [ho])).1, he⟩

/-- In a call whose context never fires, `ctx.Done()` stays open. -/
theorem not_done {c : Call α β} (hd : c.ctx.doneAtCall = false) (hf : c.ctx.canFire = false)
    {s : State α β} (hr : Reachable c s) : s.done = false := by
  cases h : s.done with
  | false => rfl
  | true =>
      rcases (reachable_inv hr).doneCtx h with h1 | h1
      · rw [hd] at h1; cases h1
      · rw [hf] at h1; cases h1

theorem mentions_self_wrapf (pre : String) (e : GoError) :
    mentions (GoError.wrapf pre e).Error e.Error := by
  have h := mentions_append pre e.Error ""
  simpa [GoError.Error] using h

/-- C6: with a context that never fires, `workers ≥ 1` and an input on
which `fn` fails, under every interleaving the call returns, never with
success: it returns an empty result and an error that wraps the error of a
failing item, prefixed by that item's index, so that the item's message is
part of the message returned.  Moreover, in any call, the collector returns
success only when taking the output that gives it one error-free output for
each index `0 .. N-1`, and success implies that `fn` failed on no item. -/
theorem error_never_missed (c : Call α β) (hd : c.ctx.doneAtCall = false)
    (hf : c.ctx.canFire = false) (hw : 1 ≤ c.workers) (i0 : Nat) (x0 : α) (e0 : GoError)
    (hx : c.inputs[i0]? = some x0) (hfail : (c.fn i0 x0).2 = some e0) :
    AlwaysReturns c (fun s => ∃ i x e, c.inputs[i]? = some x ∧ (c.fn i x).2 = some e
        ∧ s.result = some ([], some (.wrapf ("index " ++ fmtD (i : Nat) ++ ": ") e))
        ∧ mentions (GoError.wrapf ("index " ++ fmtD (i : Nat) ++ ": ") e).Error e.Error)
      ∧ (∀ (d : Call α β) (s t : State α β) (acc : List (indexedInterface β)) (res : List β),
          Reachable d s → s.main = .collect acc → step d Actor.main s = some t →
          t.result = some (res, none) →
          ∃ o, ((acc ++ [o]).map (fun r => r.Index)).Perm (List.range d.inputs.length)
            ∧ ∀ r ∈ acc ++ [o], GoodOut d r ∧ r.Error = none)
      ∧ (∀ (d : Call α β) (s : State α β) (res : List β), Reachable d s →
          s.result = some (res, none) → ∀ i x, d.inputs[i]? = some x → (d.fn i x).2 = none) := by
  refine ⟨alwaysReturns_of_safe _ _ ?_, ?_, ?_⟩
  · intro s hr hsome
    cases hres : s.result with
    | none => rw [hres] at hsome; simp at hsome
    | some r =>
        obtain ⟨res, err⟩ := r
        have hp := result_post hr hres
        have hlt : ¬ c.workers < 1 := by omega
        have hn : ¬ c.inputs.length = 0 := by
          have := lt_length_of_getElem? hx
          omega
        simp only [Post, hlt, hn, if_false] at hp
        rcases hp with ⟨_, _, h3⟩ | ⟨h1, i, x, e, h2, h3, h4⟩ | ⟨_, _, h3⟩
        · rw [not_done hd hf hr] at h3; cases h3
        · exact ⟨i, x, e, h2, h3, by rw [h1, h4], mentions_self_wrapf _ _⟩
        · rw [h3 i0 x0 hx] at hfail; cases hfail
  · intro d s t acc res hr hm hstep hres
    have hI := reachable_inv hr
    cases step_view hstep with
    | collectLast acc1 o rest hm1 ho he hlen =>
        rw [hm] at hm1
        cases hm1
        exact ⟨o, collected_all hI hm ho he hlen⟩
    | collectErr acc1 o rest e hm1 ho he => simp [State.result] at hres
    | ctxReturn acc1 hm1 hd1 => simp [State.result] at hres
    | entryWorkers hm1 hw1 => simp [State.result] at hres
    | entryEmpty hm1 hw1 hn1 => rw [hm] at hm1; cases hm1
    | entryGo hm1 hw1 hn1 => simp [State.result] at hres
    | spawnOne i hm1 hi => simp [State.result] at hres
    | spawnEnd i hm1 hi => simp [State.result] at hres
    | feedOne index input hm1 hx1 hcap => simp [State.result] at hres
    | feedEnd index hm1 hx1 => simp [State.result] at hres
    | collectMore acc1 o rest hm1 ho he hlen => simp [State.result] at hres
    | _ => simp [State.result, hm] at hres
  · intro d s res hr hres i x hix
    have hp := result_post hr hres
    unfold Post at hp
    split at hp
    · simp at hp
    · split at hp
      · rename_i hn
        have := lt_length_of_getElem? hix
        omega
      · rcases hp with ⟨_, h2, _⟩ | ⟨_, _, _, _, _, _, h4⟩ | ⟨_, _, h3⟩
        · cases h2
        · cases h4
        · exact h3 i x hix

/-- C6, an instance: `TestParMap_error_reports_no_races`, items `[0, 1, 2, 3]`
with 2 workers and item 3 failing, always returns an error that wraps a
failing item's error. -/
theorem error_never_missed_witness :
    AlwaysReturns (testCall 2 [0, 1, 2, 3] notAFanOf3)
      (fun s => ∃ i x e, (testCall 2 [0, 1, 2, 3] notAFanOf3).inputs[i]? = some x
        ∧ (notAFanOf3 i x).2 = some e
        ∧ s.result = some ([], some (.wrapf ("index " ++ fmtD (i : Nat) ++ ": ") e))
        ∧ mentions (GoError.wrapf ("index " ++ fmtD (i : Nat) ++ ": ") e).Error e.Error) :=
  (error_never_missed (testCall 2 [0, 1, 2, 3] notAFanOf3) rfl rfl (by decide) 3 3
    (.errorf "not a fan of 3") rfl rfl).1


/-! ### Cancellation before the call; the gate -/

/-- With a context that is done at call time, no worker ever gets past its
`select`, nothing is sent, `fn` is never invoked, and the only return is the
one with `ctx.Err()`. -/
theorem cancelled_inv {c : Call α β} (hd : c.ctx.doneAtCall = true) (hw : 1 ≤ c.workers)
    (hn : c.inputs ≠ []) {s : State α β} (hr : Reachable c s) :
    s.done = true ∧ s.calls = [] ∧ s.out = [] ∧ countWs isPastSel s.ws = 0
      ∧ ∀ res err, s.main = .returned res err → res = [] ∧ err = some c.ctx.err := by
  obtain ⟨sched, hs⟩ := hr
  refine exec_induct (fun s => s.done = true ∧ s.calls = [] ∧ s.out = []
    ∧ countWs isPastSel s.ws = 0
    ∧ ∀ res err, s.main = .returned res err → res = [] ∧ err = some c.ctx.err) ?_ sched _ _
    ⟨hd, rfl, rfl, by simp [init, countWs], by simp [init]⟩ hs
  intro s t ⟨h1, h2, h3, h4, h5⟩ hst
  cases hst with
  | entryWorkers hm hw0 => omega
  | entryEmpty hm hw0 hn0 => exact absurd (List.length_eq_zero.1 hn0) hn
  | entryGo hm hw0 hn0 => exact ⟨h1, h2, h3, h4, by simp⟩
  | spawnOne i hm hi =>
      exact ⟨h1, h2, h3, by simpa [countWs_append, isPastSel] using h4, by simp⟩
  | spawnEnd i hm hi => exact ⟨h1, h2, h3, h4, by simp⟩
  | feedOne index input hm hx hcap => exact ⟨h1, h2, h3, h4, by simp⟩
  | feedEnd index hm hx => exact ⟨h1, h2, h3, h4, by simp⟩
  | collectErr acc o rest e hm ho he => rw [h3] at ho; cases ho
  | collectLast acc o rest hm ho he hlen => rw [h3] at ho; cases ho
  | collectMore acc o rest hm ho he hlen => rw [h3] at ho; cases ho
  | ctxReturn acc hm hd0 =>
      refine ⟨h1, h2, h3, h4, ?_⟩
      intro res err hret
      simp only [MainPC.returned.injEq] at hret
      exact ⟨hret.1.symm, hret.2.symm⟩
  | recvJob i job rest hwi hj =>
      have e := countWs_set isPastSel s.ws i .recv (.sel job) hwi 0 0 rfl rfl
      exact ⟨h1, h2, h3, by simpa [h4] using e, h5⟩
  | recvClosed i hwi hj hc =>
      have e := countWs_set isPastSel s.ws i .recv .exited hwi 0 0 rfl rfl
      exact ⟨h1, h2, h3, by simpa [h4] using e, h5⟩
  | selDone i job hwi hd0 =>
      have e := countWs_set isPastSel s.ws i (.sel job) .exited hwi 0 0 rfl rfl
      exact ⟨h1, h2, h3, by simpa [h4] using e, h5⟩
  | selGo i job hwi hd0 => rw [h1] at hd0; cases hd0
  | gateStop i job hwi he =>
      have : 1 ≤ countWs isPastSel s.ws := le_countWs isPastSel s.ws i _ hwi
      omega
  | gateGo i job hwi he =>
      have : 1 ≤ countWs isPastSel s.ws := le_countWs isPastSel s.ws i _ hwi
      omega
  | callFn i job hwi =>
      have : 1 ≤ countWs isPastSel s.ws := le_countWs isPastSel s.ws i _ hwi
      omega
  | bump i job output err hwi =>
      have : 1 ≤ countWs isPastSel s.ws := le_countWs isPastSel s.ws i _ hwi
      omega
  | sendOut i o hwi hcap =>
      have : 1 ≤ countWs isPastSel s.ws := le_countWs isPastSel s.ws i _ hwi
      omega
  | fire hc hd0 => rw [h1] at hd0; cases hd0

/-- C7: when the context is already done at call time, with a non-empty
input and `workers ≥ 1`, under every interleaving the call returns `ctx.Err()`
with an empty result, and `fn` is invoked at most `workers` times (in fact
never, at any moment of any run). -/
theorem already_cancelled (c : Call α β) (hd : c.ctx.doneAtCall = true) (hw : 1 ≤ c.workers)
    (hn : c.inputs ≠ []) :
    AlwaysReturns c (fun s => s.result = some ([], some c.ctx.err)
        ∧ s.calls.length ≤ c.workers.toNat)
      ∧ ∀ s, Reachable c s → s.calls.length ≤ c.workers.toNat ∧ s.calls = [] := by
  have hcalls : ∀ s, Reachable c s → s.calls.length ≤ c.workers.toNat ∧ s.calls = [] := by
    intro s hr
    have h := (cancelled_inv hd hw hn hr).2.1
    rw [h]
    exact ⟨Nat.zero_le _, rfl⟩
  refine ⟨alwaysReturns_of_safe _ _ ?_, hcalls⟩
  intro s hr hsome
  refine ⟨?_, (hcalls s hr).1⟩
  have h5 := (cancelled_inv hd hw hn hr).2.2.2.2
  unfold State.result at hsome ⊢
  split at hsome
  · rename_i res err hm
    obtain ⟨h1, h2⟩ := h5 res err hm
    rw [h1, h2]
  · simp at hsome

/-- C7, an instance: 2 workers over `[0, 1, 2, 3]` with a context already
done always return `context canceled` and never invoke `fn`. -/
theorem already_cancelled_witness :
    AlwaysReturns (cancelledCall 2 [0, 1, 2, 3] itoaFn)
        (fun s => s.result = some ([], some (.errorf "context canceled"))
          ∧ s.calls.length ≤ 2)
      ∧ ∀ s, Reachable (cancelledCall 2 [0, 1, 2, 3] itoaFn) s →
          s.calls.length ≤ 2 ∧ s.calls = [] :=
  already_cancelled (cancelledCall 2 [0, 1, 2, 3] itoaFn) rfl (by decide) (by decide)

/-- Once an error is counted, the invocations made so far plus the workers
already past the gate can only go down. -/
theorem armed_calls_step {c : Call α β} {s t : State α β} (he : 0 < s.errorCount)
    (h : StepView c s t) :
    0 < t.errorCount ∧ t.calls.length + countWs isArmed t.ws
      ≤ s.calls.length + countWs isArmed s.ws := by
  cases h with
  | spawnOne i hm hi => exact ⟨he, by simp [countWs_append, isArmed]⟩
  | recvJob i job rest hw hj =>
      have e := countWs_set isArmed s.ws i .recv (.sel job) hw 0 0 rfl rfl
      exact ⟨he, by simp only; omega⟩
  | recvClosed i hw hj hc =>
      have e := countWs_set isArmed s.ws i .recv .exited hw 0 0 rfl rfl
      exact ⟨he, by simp only; omega⟩
  | selDone i job hw hd =>
      have e := countWs_set isArmed s.ws i (.sel job) .exited hw 0 0 rfl rfl
      exact ⟨he, by simp only; omega⟩
  | selGo i job hw hd =>
      have e := countWs_set isArmed s.ws i (.sel job) (.gate job) hw 0 0 rfl rfl
      exact ⟨he, by simp only; omega⟩
  | gateStop i job hw he0 =>
      have e := countWs_set isArmed s.ws i (.gate job) .exited hw 0 0 rfl rfl
      exact ⟨he, by simp only; omega⟩
  | gateGo i job hw he0 => omega
  | callFn i job hw =>
      have e := countWs_set isArmed s.ws i (.call job)
        (.ran job (c.fn job.Index job.Value).1 (c.fn job.Index job.Value).2) hw 1 0 rfl rfl
      exact ⟨he, by simp only [List.length_append, List.length_singleton]; omega⟩
  | bump i job output err hw =>
      have e := countWs_set isArmed s.ws i (.ran job output err)
        (.send { Index := job.Index, Value := output, Error := err }) hw 0 0 rfl rfl
      refine ⟨?_, by simp only; omega⟩
      simp only
      split <;> omega
  | sendOut i o hw hcap =>
      have e := countWs_set isArmed s.ws i (.send o) .recv hw 0 0 rfl rfl
      exact ⟨he, by simp only; omega⟩
  | _ => exact ⟨he, le_refl _⟩

theorem armed_calls_exec {c : Call α β} :
    ∀ (sched : List Actor) (s t : State α β), 0 < s.errorCount → exec c sched s = some t →
      t.calls.length + countWs isArmed t.ws ≤ s.calls.length + countWs isArmed s.ws
  | [], s, t, _, h => by simp [exec] at h; subst h; exact le_refl _
  | a :: rest, s, t, he, h => by
      simp only [exec] at h
      split at h
      · rename_i u hu
        obtain ⟨h1, h2⟩ := armed_calls_step he (step_view hu)
        have h3 := armed_calls_exec rest u t h1 h
        omega
      · cases h

/-- C8 (as stated, refuted): one worker over `[0, 1, 2, 3]` where only item 3
(index 3) fails, and at once: the worker runs the four jobs in turn, so `fn`
is invoked 4 times, more than `workers + 1 = 2`. -/
theorem fail_fast_counterexample :
    ((notAFanOf3 0 0).2 = none ∧ (notAFanOf3 1 1).2 = none ∧ (notAFanOf3 2 2).2 = none
        ∧ (notAFanOf3 3 3).2 = some (.errorf "not a fan of 3"))
      ∧ ∃ s, exec (testCall 1 [0, 1, 2, 3] notAFanOf3) (mainTurns 8 ++ turns 0 24)
            (init (testCall 1 [0, 1, 2, 3] notAFanOf3)) = some s
          ∧ s.calls = [(0, 0), (1, 1), (2, 2), (3, 3)]
          ∧ ¬ (s.calls.length ≤ (1 : Int).toNat + 1) :=
  ⟨by decide, _, rfl, rfl, by decide⟩

/-- Every failed invocation of `fn` is counted in `errorCount`, or was made by
a worker that is about to count it. -/
theorem failed_counted {c : Call α β} {s : State α β} (hr : Reachable c s) :
    s.calls.countP (fun p => (c.fn p.1 p.2).2.isSome)
      = s.errorCount + countWs isErrRan s.ws := by
  obtain ⟨sched, hs⟩ := hr
  refine exec_induct (fun s => s.calls.countP (fun p => (c.fn p.1 p.2).2.isSome)
    = s.errorCount + countWs isErrRan s.ws) ?_ sched _ _ (by simp [init, countWs]) hs
  intro s t hI hst
  cases hst with
  | spawnOne i hm hi => simpa [countWs_append, isErrRan] using hI
  | recvJob i job rest hw hj =>
      have e := countWs_set isErrRan s.ws i .recv (.sel job) hw 0 0 rfl rfl
      simp only at hI ⊢; omega
  | recvClosed i hw hj hc =>
      have e := countWs_set isErrRan s.ws i .recv .exited hw 0 0 rfl rfl
      simp only at hI ⊢; omega
  | selDone i job hw hd =>
      have e := countWs_set isErrRan s.ws i (.sel job) .exited hw 0 0 rfl rfl
      simp only at hI ⊢; omega
  | selGo i job hw hd =>
      have e := countWs_set isErrRan s.ws i (.sel job) (.gate job) hw 0 0 rfl rfl
      simp only at hI ⊢; omega
  | gateStop i job hw he =>
      have e := countWs_set isErrRan s.ws i (.gate job) .exited hw 0 0 rfl rfl
      simp only at hI ⊢; omega
  | gateGo i job hw he =>
      have e := countWs_set isErrRan s.ws i (.gate job) (.call job) hw 0 0 rfl rfl
      simp only at hI ⊢; omega
  | callFn i job hw =>
      have e := countWs_set isErrRan s.ws i (.call job)
        (.ran job (c.fn job.Index job.Value).1 (c.fn job.Index job.Value).2) hw 0
        (if (c.fn job.Index job.Value).2.isSome then 1 else 0) rfl rfl
      simp only [List.countP_append, List.countP_cons, List.countP_nil] at hI ⊢
      split at e
      all_goals simp_all
      all_goals omega
  | bump i job output err hw =>
      have e := countWs_set isErrRan s.ws i (.ran job output err)
        (.send { Index := job.Index, Value := output, Error := err }) hw
        (if err.isSome then 1 else 0) 0 rfl rfl
      simp only at hI ⊢
      split at e
      all_goals simp_all
      all_goals omega
  | sendOut i o hw hcap =>
      have e := countWs_set isErrRan s.ws i (.send o) .recv hw 0 0 rfl rfl
      simp only at hI ⊢; omega
  | _ => exact hI

/-- C8 (amended): for every `workers ≥ 1` and every interleaving, in every
reachable state: every failed invocation of `fn` has been counted in
`errorCount` or was made by a worker that is about to count it; such a worker
counts it with its very next action, before sending the result, so every
error output sent has been counted; once a failure is counted, a worker that
comes to the gate leaves without invoking `fn`, and at most `workers - 1`
further invocations begin in any continuation (those of workers already past
the gate).  The invocations begun before the failure is counted are not
bounded by `workers + 1`. -/
theorem fail_fast_bound (c : Call α β) (s : State α β) (hr : Reachable c s) :
    s.calls.countP (fun p => (c.fn p.1 p.2).2.isSome) = s.errorCount + countWs isErrRan s.ws
      ∧ (∀ (i : Nat) (job : indexedInterface α) (output : β) (e : GoError),
          s.ws[i]? = some (.ran job output (some e)) →
          job.Index < c.inputs.length ∧ (c.fn job.Index job.Value).2 = some e
          ∧ ∃ t, step c (Actor.worker i) s = some t ∧ t.errorCount = s.errorCount + 1
              ∧ t.calls = s.calls
              ∧ t.ws[i]? = some (.send { Index := job.Index, Value := output, Error := some e }))
      ∧ (∀ o ∈ s.out, o.Error.isSome = true → 0 < s.errorCount)
      ∧ (0 < s.errorCount → ∀ (i : Nat) (job : indexedInterface α),
          s.ws[i]? = some (.gate job) →
          ∃ t, step c (Actor.worker i) s = some t ∧ t.calls = s.calls
            ∧ t.ws[i]? = some .exited)
      ∧ (0 < s.errorCount → 1 ≤ c.workers ∧ ∀ (sched : List Actor) (t : State α β),
          exec c sched s = some t →
          0 < t.errorCount ∧ t.calls.length + 1 ≤ s.calls.length + c.workers.toNat) := by
  have hI := reachable_inv hr
  refine ⟨failed_counted hr, ?_, fun o ho => (hI.goods.outGood o ho).2, ?_, ?_⟩
  · intro i job output e hw
    have hg := hI.goods.wsGood _ (List.getElem?_mem hw)
    simp only [GoodWorker, GoodJob] at hg
    have hi := lt_length_of_getElem? hw
    have hstep : step c (Actor.worker i) s = some { s with
        ws := s.ws.set i (.send { Index := job.Index, Value := output, Error := some e }),
        errorCount := s.errorCount + 1 } := by
      simp only [step, workerStep, hw, Option.isSome_some, if_true]
    exact ⟨lt_length_of_getElem? hg.1, by rw [hg.2], _, hstep, rfl, rfl,
      List.getElem?_set_self hi⟩
  · intro he i job hw
    have hi := lt_length_of_getElem? hw
    have hstep : step c (Actor.worker i) s = some { s with ws := s.ws.set i .exited } := by
      simp only [step, workerStep, hw, gt_iff_lt, if_pos he]
    exact ⟨_, hstep, rfl, List.getElem?_set_self hi⟩
  · intro he
    have h2 := hI.armed he
    have h3 := hI.wsLen
    refine ⟨by omega, ?_⟩
    intro sched t ht
    have h1 := armed_calls_exec sched s t he ht
    refine ⟨?_, by omega⟩
    exact exec_induct (fun u => 0 < u.errorCount)
      (fun u v hu huv => (armed_calls_step hu huv).1) sched s t he ht

/-- C8, an instance: 2 workers over `[3, 0, 1, 2]` where item 3 fails.  When
worker 0 counts the failure, worker 1 is already past the gate with job 1
(state `gateTripped`, one invocation made).  Running on, worker 1 makes the
one further invocation the bound allows, both workers then come to the gate
with jobs 2 and 3 and leave without invoking `fn`, and the call returns the
error of index 0 (state `gateDropped`, two invocations in all); in between,
when worker 1 is at the gate with job 2 (state `gateReached`), its action is
to leave. -/
theorem fail_fast_bound_witness :
    exec (testCall 2 [3, 0, 1, 2] notAFanOf3)
        (mainTurns 9 ++ turns 0 4 ++ turns 1 3 ++ turns 0 1)
        (init (testCall 2 [3, 0, 1, 2] notAFanOf3)) = some gateTripped
      ∧ exec (testCall 2 [3, 0, 1, 2] notAFanOf3) (turns 1 6 ++ turns 0 4 ++ mainTurns 2)
          gateTripped = some gateDropped
      ∧ gateTripped.calls.countP (fun p => (notAFanOf3 p.1 p.2).2.isSome)
          = gateTripped.errorCount + countWs isErrRan gateTripped.ws
      ∧ (0 < gateDropped.errorCount
          ∧ gateDropped.calls.length + 1 ≤ gateTripped.calls.length + (2 : Int).toNat)
      ∧ gateDropped.calls.length = gateTripped.calls.length + 1
      ∧ (∃ t, step (testCall 2 [3, 0, 1, 2] notAFanOf3) (Actor.worker 1) gateReached = some t
          ∧ t.calls = gateReached.calls ∧ t.ws[1]? = some .exited) :=
  ⟨by decide, by decide,
    (fail_fast_bound (testCall 2 [3, 0, 1, 2] notAFanOf3) gateTripped
      ⟨mainTurns 9 ++ turns 0 4 ++ turns 1 3 ++ turns 0 1, by decide⟩).1,
    ((fail_fast_bound (testCall 2 [3, 0, 1, 2] notAFanOf3) gateTripped
      ⟨mainTurns 9 ++ turns 0 4 ++ turns 1 3 ++ turns 0 1, by decide⟩).2.2.2.2
        (by decide)).2 (turns 1 6 ++ turns 0 4 ++ mainTurns 2) gateDropped (by decide),
    by decide,
    (fail_fast_bound (testCall 2 [3, 0, 1, 2] notAFanOf3) gateReached
      ⟨mainTurns 9 ++ turns 0 4 ++ turns 1 3 ++ turns 0 1 ++ turns 1 5, by decide⟩).2.2.2.1
        (by decide) 1 { Index := 2, Value := 1, Error := none } rfl⟩


/-! ### Order preservation -/

/-- The final loop of `IntsToStrings` on results that are all strings. -/
theorem typedLoop_strs : ∀ (l acc : List String),
    typedLoop (l.map Iface.str) acc = (acc ++ l, none)
  | [], acc => by simp [typedLoop]
  | x :: l, acc => by
      simp only [List.map_cons, typedLoop]
      rw [typedLoop_strs l (acc ++ [x])]
      simp

/-- What the inner call of `IntsToStrings` is expected to return. -/
theorem expected_innerCall (ctx : Context) (xs : List Int) (workers : Int)
    (fn : Nat → Int → String × Option GoError) :
    expected (innerCall ctx (xs.map Iface.int) workers fn)
      = (xs.enum.map (fun p => (fn p.1 p.2).1)).map Iface.str := by
  simp only [expected, innerCall, List.enum_map, List.map_map]
  apply List.map_congr_left
  intro p _
  rfl

/-- C1: for every non-nil slice `items`, every `workers ≥ 1`, every `fn` that
fails on no item, and a context that never fires (by `exec_quiet` these are
also the runs of any context that does not fire during the call),
`IntsToStrings` returns no error and exactly
`[fn(0, items[0]), ..., fn(N-1, items[N-1])]`, under every interleaving of the
workers and of the collector: whatever it returns is that list, every run is
finite, a run in which no goroutine can move any more has returned it, and
some run returns it. -/
theorem IntsToStrings_order (ctx : Context) (items : List Int) (workers : Int)
    (fn : Nat → Int → String × Option GoError) (hd : ctx.doneAtCall = false)
    (hf : ctx.canFire = false) (hw : 1 ≤ workers)
    (hfn : ∀ i x, items[i]? = some x → (fn i x).2 = none) :
    (∀ sched r, IntsToStrings ctx (some items) workers fn sched = some r →
        r = (items.enum.map (fun p => (fn p.1 p.2).1), none))
      ∧ (∃ bound, ∀ sched s, exec (innerCall ctx (items.map Iface.int) workers fn) sched
            (init (innerCall ctx (items.map Iface.int) workers fn)) = some s →
          sched.length ≤ bound)
      ∧ (∀ sched s, exec (innerCall ctx (items.map Iface.int) workers fn) sched
            (init (innerCall ctx (items.map Iface.int) workers fn)) = some s →
          Quiescent (innerCall ctx (items.map Iface.int) workers fn) s →
          IntsToStrings ctx (some items) workers fn sched
            = some (items.enum.map (fun p => (fn p.1 p.2).1), none))
      ∧ (∃ sched, IntsToStrings ctx (some items) workers fn sched
            = some (items.enum.map (fun p => (fn p.1 p.2).1), none)) := by
  have safe : ∀ s, Reachable (innerCall ctx (items.map Iface.int) workers fn) s →
      s.result.isSome = true →
      s.result.map (fun r => finish r.1 r.2)
        = some (items.enum.map (fun p => (fn p.1 p.2).1), none) := by
    intro s hr hsome
    cases hres : s.result with
    | none => rw [hres] at hsome; simp at hsome
    | some r =>
        obtain ⟨res, err⟩ := r
        have hp := result_post hr hres
        have hlt : ¬ (innerCall ctx (items.map Iface.int) workers fn).workers < 1 := by
          simp only [innerCall]; omega
        simp only [Post, hlt, if_false] at hp
        split at hp
        · obtain ⟨h1, h2⟩ := hp
          rename_i hn
          have hnil : items = [] := by
            simp only [innerCall, List.length_map] at hn
            exact List.length_eq_zero.1 hn
          subst h1 h2 hnil
          rfl
        · rcases hp with ⟨_, _, h3⟩ | ⟨_, i, x, e, h2, h3, _⟩ | ⟨h1, h2, _⟩
          · rw [not_done hd hf hr] at h3; cases h3
          · simp only [innerCall, List.getElem?_map, Option.map_eq_some'] at h2
            obtain ⟨y, hy, hxy⟩ := h2
            subst hxy
            simp only [innerCall, adapter] at h3
            rw [hfn i y hy] at h3
            cases h3
          · subst h1 h2
            simp only [Option.map_some', finish, expected_innerCall, typedLoop_strs,
              List.nil_append]
  have hA := alwaysReturns_of_safe (innerCall ctx (items.map Iface.int) workers fn) _ safe
  refine ⟨?_, hA.1, ?_, ?_⟩
  · intro sched r hr
    rw [IntsToStrings_some] at hr
    cases hs : exec (innerCall ctx (items.map Iface.int) workers fn) sched
        (init (innerCall ctx (items.map Iface.int) workers fn)) with
    | none => rw [hs] at hr; simp at hr
    | some s =>
        rw [hs] at hr
        simp only [Option.bind] at hr
        have hsome : s.result.isSome = true := by
          cases h : s.result with
          | none => rw [h] at hr; simp at hr
          | some _ => rfl
        rw [safe s ⟨sched, hs⟩ hsome] at hr
        exact (Option.some.inj hr).symm
  · intro sched s hs hq
    rw [IntsToStrings_some, hs]
    simp only [Option.bind]
    exact safe s ⟨sched, hs⟩ (hA.2.1 s ⟨sched, hs⟩ hq)
  · obtain ⟨s, ⟨sched, hs⟩, hsome⟩ := hA.2.2.2
    refine ⟨sched, ?_⟩
    rw [IntsToStrings_some, hs]
    simp only [Option.bind]
    exact safe s ⟨sched, hs⟩ hsome

/-- C1, an instance: `TestParMap_basic_functionality`, items `[0, 1, 2, 3]`
with 3 workers and `strconv.Itoa`, returns `["0", "1", "2", "3"]` whenever it
returns, here in a run where worker 2 finishes job 2 before worker 0 finishes
job 0. -/
theorem IntsToStrings_order_witness :
    (∀ sched r, IntsToStrings Background (some [0, 1, 2, 3]) 3 itoaFn sched = some r →
        r = (["0", "1", "2", "3"], none))
      ∧ IntsToStrings Background (some [0, 1, 2, 3]) 3 itoaFn
          (mainTurns 10 ++ turns 0 1 ++ turns 1 1 ++ turns 2 6 ++ turns 1 5 ++ turns 0 5
            ++ turns 1 6 ++ mainTurns 4) = some (["0", "1", "2", "3"], none) :=
  ⟨(IntsToStrings_order Background [0, 1, 2, 3] 3 itoaFn rfl rfl (by decide)
      (by intro i x _; rfl)).1, by decide⟩

end parmap

namespace slice

/-! ### The intake conversion -/

/-- The loop over a non-nil slice fills every position with the element at
that position: started at `i` with the positions below `i` filled and enough
fuel, it ends without a panic in the slice of all elements. -/
theorem fillLoop_elems (xs : List Iface) :
    ∀ (fuel i : Nat) (ret : List (Option Iface)), i ≤ xs.length → xs.length - i < fuel →
      ret.length = xs.length → (∀ j, j < i → ret[j]? = (xs[j]?).map some) →
      fillLoop (.elems xs) fuel i ret = some (xs.map some)
  | 0, i, ret, _, hfuel, _, _ => by omega
  | fuel + 1, i, ret, hi, hfuel, hlen, hpre => by
      simp only [fillLoop, Arg.Len, Arg.Index]
      by_cases hlt : i < xs.length
      · rw [if_pos hlt, List.getElem?_eq_getElem hlt]
        have hret : i < ret.length := by omega
        simp only [if_pos hret]
        apply fillLoop_elems xs fuel (i + 1) _ (by omega) (by omega)
          (by rw [List.length_set]; exact hlen)
        intro j hj
        by_cases hji : j = i
        · subst hji
          rw [List.getElem?_set_self hret, List.getElem?_eq_getElem hlt]
          rfl
        · rw [List.getElem?_set_ne (Ne.symm hji)]
          exact hpre j (by omega)
      · rw [if_neg hlt]
        have hieq : i = xs.length := by omega
        congr 1
        apply List.ext_getElem?
        intro j
        rw [List.getElem?_map]
        by_cases hj : j < i
        · exact hpre j hj
        · rw [List.getElem?_eq_none_iff.2 (by omega), List.getElem?_eq_none_iff.2 (by omega)]
          rfl

/-- On a non-nil slice the body of `ToInterfaceSlice` returns its elements. -/
theorem run_elems (xs : List Iface) :
    ToInterfaceSlice.run (.elems xs) = some (xs.map some, none) := by
  have h := fillLoop_elems xs (xs.length + 1) 0 (List.replicate xs.length none)
    (Nat.zero_le _) (by omega) (by simp) (by intro j hj; omega)
  simp only [ToInterfaceSlice.run, Arg.Kind, Arg.IsNil, Arg.Len, ne_eq, not_true_eq_false,
    if_false, h]

/-- C11: `ToInterfaceSlice`, run statement by statement over `reflect`, never
panics, and `Inputs` returns what it returns.  It succeeds exactly when its
argument is a non-nil slice; on success the result has the length of the
argument and at every position the argument's element at that position (no
nil interface left by `make`), so an empty non-nil slice gives an empty
sequence; a nil slice or a value that is not a slice gives an error and an
empty sequence. -/
theorem intake_conversion (arg : Arg) :
    ∃ res err, ToInterfaceSlice.run arg = some (res, err)
      ∧ res = (parmap.Inputs arg).1.map some ∧ err = (parmap.Inputs arg).2
      ∧ (err = none ↔ ∃ xs, arg = .elems xs)
      ∧ (∀ xs, arg = .elems xs →
          res.length = xs.length ∧ ∀ (i : Nat) (x : Iface), xs[i]? = some x → res[i]? = some (some x))
      ∧ (arg = .elems [] → res = [] ∧ err = none)
      ∧ (arg = .nilSlice → res = [] ∧ err = some (.errorf "nil slice given"))
      ∧ (∀ v, arg = .notSlice v → res = [] ∧ err = some (.errorf "given a non-slice type"))
      ∧ (err ≠ none → res = []) := by
  cases arg with
  | notSlice v =>
      refine ⟨[], some (.errorf "given a non-slice type"), ?_, rfl, rfl, ?_, ?_, ?_, ?_, ?_, ?_⟩
      · cases v <;> rfl
      · simp
      · intro xs h; cases h
      · intro h; cases h
      · intro h; cases h
      · intro w _; exact ⟨rfl, rfl⟩
      · intro _; rfl
  | nilSlice =>
      refine ⟨[], some (.errorf "nil slice given"), rfl, rfl, rfl, ?_, ?_, ?_, ?_, ?_, ?_⟩
      · simp
      · intro xs h; cases h
      · intro h; cases h
      · intro _; exact ⟨rfl, rfl⟩
      · intro w h; cases h
      · intro _; rfl
  | elems xs =>
      refine ⟨xs.map some, none, run_elems xs, rfl, rfl, ?_, ?_, ?_, ?_, ?_, ?_⟩
      · simp
      · intro ys h
        cases h
        refine ⟨by simp, ?_⟩
        intro i x hx
        rw [List.getElem?_map, hx]
        rfl
      · intro h
        cases h
        exact ⟨rfl, rfl⟩
      · intro h; cases h
      · intro w h; cases h
      · intro h; exact absurd rfl h

/-- C11, an instance: the slice `[7, "a"]` is copied element by element, and
`Inputs` on the `[]int` slice `[0, 1]` gives the two items. -/
theorem intake_conversion_witness :
    (∃ res err, ToInterfaceSlice.run (.elems [.int 7, .str "a"]) = some (res, err)
        ∧ res = (parmap.Inputs (.elems [.int 7, .str "a"])).1.map some
        ∧ err = (parmap.Inputs (.elems [.int 7, .str "a"])).2
        ∧ (err = none ↔ ∃ xs, Arg.elems [.int 7, .str "a"] = .elems xs))
      ∧ ToInterfaceSlice.run (.elems [.int 7, .str "a"])
          = some ([some (.int 7), some (.str "a")], none)
      ∧ parmap.Inputs (parmap.intsArg (some [0, 1])) = ([.int 0, .int 1], none) :=
  ⟨by
    obtain ⟨res, err, h1, h2, h3, h4, _⟩ := intake_conversion (.elems [.int 7, .str "a"])
    exact ⟨res, err, h1, h2, h3, h4⟩, by decide, by decide⟩

end slice

namespace seq

/-! ### The counter -/

/-- C9 (as stated, refuted): after `Reset(18446744073709551615)` the next
`Next` does not return a value one greater than the stored one; it returns 0. -/
theorem Next_wraps_counterexample :
    (Seq.Next (Seq.Reset 0 18446744073709551615)).2 = 0
      ∧ ¬ ((Seq.Next (Seq.Reset 0 18446744073709551615)).2 = 18446744073709551615 + 1) := by
  decide

/-- C9 (amended): `Next` stores the value it returns, which is the stored
value plus one modulo `2 ^ 64`; while the stored value is below `2 ^ 64 - 1`
that is exactly one more than the stored value (the value the preceding
`Next` returned), hence strictly greater; the first `Next` after `Reset(v)`
returns `v + 1` for `v < 2 ^ 64 - 1`; a fresh `Seq(0)` gives 1, 2, 3. -/
theorem Next_increments (s v : Nat) :
    (Seq.Next s).1 = (Seq.Next s).2
      ∧ (Seq.Next s).2 = (s + 1) % 2 ^ 64
      ∧ (s + 1 < 2 ^ 64 → (Seq.Next s).2 = s + 1 ∧ s < (Seq.Next s).2)
      ∧ (v + 1 < 2 ^ 64 → (Seq.Next (Seq.Reset s v)).2 = v + 1)
      ∧ (Seq.Next (Seq.Reset s 0)).2 = 1
      ∧ (Seq.Next 0).2 = 1
      ∧ (Seq.Next (Seq.Next 0).1).2 = 2
      ∧ (Seq.Next (Seq.Next (Seq.Next 0).1).1).2 = 3 := by
  refine ⟨rfl, rfl, ?_, ?_, rfl, by decide, by decide, by decide⟩
  · intro h
    have h1 : (s + 1) % 2 ^ 64 = s + 1 := Nat.mod_eq_of_lt h
    have h2 : (Seq.Next s).2 = s + 1 := h1
    rw [h2]
    exact ⟨rfl, Nat.lt_succ_self s⟩
  · intro h
    have h1 : v % 2 ^ 64 = v := Nat.mod_eq_of_lt (by omega)
    have h2 : (v + 1) % 2 ^ 64 = v + 1 := Nat.mod_eq_of_lt h
    simp only [Seq.Next, Seq.Reset, UINT64, h1, h2]

/-- C9, an instance: from the stored value 41 `Next` returns 42, and after
`Reset(7)` it returns 8. -/
theorem Next_increments_witness :
    ((Seq.Next 41).2 = 41 + 1 ∧ 41 < (Seq.Next 41).2) ∧ (Seq.Next (Seq.Reset 41 7)).2 = 7 + 1 :=
  ⟨(Next_increments 41 7).2.2.1 (by decide), (Next_increments 41 7).2.2.2.1 (by decide)⟩

/-- C10 (as stated, refuted): from the stored value `2 ^ 63 - 1`, `Next`
returns `2 ^ 63` but `NextAsInt` returns `-2 ^ 63` and `NextAsString` its
text, not the decimal text of `2 ^ 63`. -/
theorem NextAsInt_counterexample :
    (Seq.Next 9223372036854775807).2 = 9223372036854775808
      ∧ (Seq.NextAsInt 9223372036854775807).2 = -9223372036854775808
      ∧ (Seq.NextAsString 9223372036854775807).2 = "-9223372036854775808"
      ∧ (Seq.NextAsInt 9223372036854775807).2 ≠ (((Seq.Next 9223372036854775807).2 : Nat) : Int)
      ∧ (Seq.NextAsString 9223372036854775807).2 ≠ Nat.repr (Seq.Next 9223372036854775807).2 := by
  decide

/-- C10 (amended): `NextAsInt` and `NextAsString` leave the counter in the
state `Next` leaves it in; `NextAsInt` returns the two's-complement reading of
the value `Next` returns and `NextAsString` its decimal text; while the stored
value is below `2 ^ 63 - 1` the counter advances by exactly one and they
return that integer and its base-10 text; on `Seq(0)` they give 1 then 2 and
"1" then "2". -/
theorem NextAs_same_value (s : Nat) :
    (Seq.NextAsInt s).1 = (Seq.Next s).1
      ∧ (Seq.NextAsString s).1 = (Seq.Next s).1
      ∧ (Seq.NextAsInt s).2 = toInt (Seq.Next s).2
      ∧ (Seq.NextAsString s).2 = fmtD (toInt (Seq.Next s).2)
      ∧ (s + 1 < 2 ^ 63 →
          (Seq.Next s).2 = s + 1
          ∧ (Seq.NextAsInt s).1 = s + 1 ∧ (Seq.NextAsInt s).2 = ((s + 1 : Nat) : Int)
          ∧ (Seq.NextAsString s).1 = s + 1 ∧ (Seq.NextAsString s).2 = Nat.repr (s + 1))
      ∧ (Seq.NextAsInt 0).2 = 1 ∧ (Seq.NextAsInt (Seq.NextAsInt 0).1).2 = 2
      ∧ (Seq.NextAsString 0).2 = "1" ∧ (Seq.NextAsString (Seq.NextAsString 0).1).2 = "2" := by
  refine ⟨rfl, rfl, rfl, rfl, ?_, by decide, by decide, by decide, by decide⟩
  intro h
  have h1 : (s + 1) % 2 ^ 64 = s + 1 := Nat.mod_eq_of_lt (by omega)
  have h2 : toInt (s + 1) = ((s + 1 : Nat) : Int) := by
    unfold toInt
    simp only [UINT64, h1]
    rw [if_pos h]
  simp only [Seq.NextAsString, Seq.NextAsInt, Seq.Next, UINT64, h1, h2]
  exact ⟨trivial, trivial, trivial, trivial, rfl⟩

/-- C10, an instance: from the stored value 41 both return 42. -/
theorem NextAs_same_value_witness :
    (Seq.NextAsInt 41).2 = ((41 + 1 : Nat) : Int) ∧ (Seq.NextAsString 41).2 = Nat.repr (41 + 1) :=
  ⟨((NextAs_same_value 41).2.2.2.2.1 (by decide)).2.2.1,
   ((NextAs_same_value 41).2.2.2.2.1 (by decide)).2.2.2.2⟩

end seq

